import Mathlib

/-!
Verification development for the qqbiaobaiwall repository (Go).

Shallow embedding of the three core components the claims concern:
* the resource-key cache (`internal/rkey/cache.go`, first document in the file),
* the publication worker (`internal/task/worker.go`),
* the credential lifecycle manager (`internal/task/keepalive.go`).

Machine integers of the Go code are modelled as `Int`/`Nat` (no overflow is
reachable in the modelled paths).  External library routines used by the code
(`encoding/json`, `net/url`, `strconv.Unquote`, `regexp` on the two fixed
patterns) are modelled as executable Lean functions following their documented
behaviour on the inputs the code feeds them; each such model is marked in its
doc comment.  Recursive scanners take an explicit fuel argument (always called
with enough fuel for the input, `fuel = length + 1` style) so that every
definition is a computable total `def`.
-/

/-! ### Character and list-of-character utilities -/

/-- The double-quote character (written via its code point). -/
def quoteChar : Char := Char.ofNat 34

/-- The backslash character. -/
def backslashChar : Char := Char.ofNat 92

/-- The opening curly brace character. -/
def lbraceChar : Char := Char.ofNat 123

/-- The closing curly brace character. -/
def rbraceChar : Char := Char.ofNat 125

/-- The backtick character. -/
def backtickChar : Char := Char.ofNat 96

/-- Characters of the Go regexp character class `[A-Za-z0-9_\-]` (ASCII only),
used by `tokenRe` and `rkeyParamRe` in `cache.go`. -/
def isTokenChar (c : Char) : Bool :=
  (('A' ≤ c && c ≤ 'Z') || ('a' ≤ c && c ≤ 'z') || ('0' ≤ c && c ≤ '9')
    || c = '_' || c = '-')

/-- Decimal digit test (ASCII). -/
def isDigitChar (c : Char) : Bool := '0' ≤ c && c ≤ '9'

/-- Whitespace recognised by the JSON grammar and by Go's `regexp` class
`\s = [\t\n\f\r ]` (the JSON grammar omits `\f`; the two uses are split below). -/
def isJsonWs (c : Char) : Bool := c = ' ' || c = '\t' || c = '\n' || c = '\r'

/-- Go regexp `\s` class: `[\t\n\f\r ]`. -/
def isReWs (c : Char) : Bool :=
  c = ' ' || c = '\t' || c = '\n' || c = '\r' || c = Char.ofNat 12

/-- ASCII whitespace trimmed by `strings.TrimSpace` on the inputs in play
(the Unicode space classes never occur in the modelled payloads). -/
def isSpaceChar (c : Char) : Bool := c = ' ' || c = '\t' || c = '\n' || c = '\r'

/-- `strings.TrimSpace`, computed on the character list. -/
def strTrim (s : String) : String :=
  String.mk (((s.data.dropWhile isSpaceChar).reverse.dropWhile isSpaceChar).reverse)

/-- `strings.ToLower` (ASCII; the inputs in play have no case-mapping
characters outside ASCII). -/
def strLower (s : String) : String := String.mk (s.data.map Char.toLower)

/-- Does `pre` occur at the head of `l`? -/
def listStartsWith : List Char → List Char → Bool
  | [], _ => true
  | a :: as, l =>
    match l with
    | b :: bs => a = b && listStartsWith as bs
    | [] => false

/-- Does `needle` occur anywhere inside `hay`?  Models `strings.Contains`. -/
def listContainsSub (hay needle : List Char) : Bool :=
  match hay with
  | [] => needle.isEmpty
  | _ :: t => listStartsWith needle hay || listContainsSub t needle

/-- `strings.Contains` on `String`s. -/
def strContains (s sub : String) : Bool := listContainsSub s.data sub.data

/-- Case-insensitive match of the lowercase literal `lit` at the head of `l`;
returns the rest on success. -/
def matchLitCI : List Char → List Char → Option (List Char)
  | l, [] => some l
  | [], _ :: _ => none
  | a :: as, b :: bs => if a.toLower = b then matchLitCI as bs else none

/-- Value of a hexadecimal digit (code-point arithmetic). -/
def hexDigitVal (c : Char) : Option Nat :=
  let n := c.toNat
  if 48 ≤ n ∧ n ≤ 57 then some (n - 48)
  else if 97 ≤ n ∧ n ≤ 102 then some (n - 87)
  else if 65 ≤ n ∧ n ≤ 70 then some (n - 55)
  else none

/-- Numeric value of a list of decimal digits. -/
def digitsVal (ds : List Char) : Nat :=
  ds.foldl (fun acc c => 10 * acc + (c.toNat - 48)) 0

/-- Longest digit run at the head. -/
def takeDigitRun (cs : List Char) : List Char × List Char := cs.span isDigitChar

/-- Longest token-character run at the head. -/
def takeTokenRun (cs : List Char) : List Char × List Char := cs.span isTokenChar

/-! ### Model of Go `encoding/json` decoding (`gojson`)

`cache.go` calls `json.Unmarshal` on two fixed target shapes (a slice of a
three-field struct, and a struct holding such a slice under `data`).  We model
the JSON grammar with a fuel-indexed recursive-descent parser and then the
field-matching rules of `encoding/json` (unknown fields ignored, JSON key
matched to the lowercase tags `type`/`rkey`/`key`/`data` ASCII
case-insensitively, later duplicate keys overwriting earlier ones, `null`
leaving a field untouched, a type mismatch failing the whole decode).
Numbers land in an `interface\x7b\x7d` field and are truncated by `int(...)`
toward zero in `normalizeType`, so the model stores the toward-zero integer
value of each JSON number. -/

namespace gojson

/-- A parsed JSON value; numbers carry their `int(float64(...))`
toward-zero truncation (sufficient because `cache.go` only ever truncates). -/
inductive JVal where
  | jnull
  | jbool (b : Bool)
  | jnum (n : Int)
  | jstr (s : String)
  | jarr (xs : List JVal)
  | jobj (fs : List (String × JVal))

/-- Skip JSON whitespace. -/
def skipWs : List Char → List Char
  | c :: cs => if isJsonWs c then skipWs cs else c :: cs
  | [] => []

/-- Parse exactly four hex digits. -/
def parseHex4 : List Char → Option (Nat × List Char)
  | a :: b :: c :: d :: r => do
    let va ← hexDigitVal a
    let vb ← hexDigitVal b
    let vc ← hexDigitVal c
    let vd ← hexDigitVal d
    some (((va * 16 + vb) * 16 + vc) * 16 + vd, r)
  | _ => none

/-- Body of a JSON string after the opening quote; handles the standard
escapes.  `\uXXXX` becomes the code point directly (surrogate pairing is not
modelled; no modelled input uses it). -/
def parseStrBody (fuel : Nat) (cs : List Char) (acc : List Char) :
    Option (String × List Char) :=
  match fuel with
  | 0 => none
  | f + 1 =>
    match cs with
    | [] => none
    | c :: rest =>
      if c = quoteChar then some (String.mk acc.reverse, rest)
      else if c = backslashChar then
        match rest with
        | [] => none
        | e :: r2 =>
          if e = quoteChar then parseStrBody f r2 (quoteChar :: acc)
          else if e = backslashChar then parseStrBody f r2 (backslashChar :: acc)
          else if e = '/' then parseStrBody f r2 ('/' :: acc)
          else if e = 'b' then parseStrBody f r2 (Char.ofNat 8 :: acc)
          else if e = 'f' then parseStrBody f r2 (Char.ofNat 12 :: acc)
          else if e = 'n' then parseStrBody f r2 ('\n' :: acc)
          else if e = 'r' then parseStrBody f r2 ('\r' :: acc)
          else if e = 't' then parseStrBody f r2 ('\t' :: acc)
          else if e = 'u' then
            match parseHex4 r2 with
            | some (n, r3) => parseStrBody f r3 (Char.ofNat n :: acc)
            | none => none
          else none
      else if c.toNat < 32 then none
      else parseStrBody f rest (c :: acc)

/-- Magnitude of the toward-zero truncation `mantissa * 10 ^ scale`
(`scale` may be negative). -/
def scaleTrunc (m : Nat) (scale : Int) : Nat :=
  if 0 ≤ scale then m * 10 ^ scale.toNat else m / 10 ^ (-scale).toNat

/-- Parse a JSON number (strict grammar: no leading zeros, optional fraction
and exponent); the value is the `int(...)` toward-zero truncation. -/
def parseNum (cs : List Char) : Option (Int × List Char) :=
  let (neg, cs1) : Bool × List Char :=
    match cs with
    | '-' :: r => (true, r)
    | _ => (false, cs)
  let (ids, cs2) := takeDigitRun cs1
  match ids with
  | [] => none
  | d0 :: drest =>
    if d0 = '0' && !drest.isEmpty then none
    else
      let (fds, cs3) : List Char × List Char :=
        match cs2 with
        | '.' :: r =>
          let (fs, r2) := takeDigitRun r
          (fs, r2)
        | _ => ([], cs2)
      if (match cs2 with | '.' :: _ => fds.isEmpty | _ => false) then none
      else
        let expPart : Option (Int × List Char) :=
          match cs3 with
          | 'e' :: r | 'E' :: r =>
            let (esign, r1) : Bool × List Char :=
              match r with
              | '-' :: rr => (true, rr)
              | '+' :: rr => (false, rr)
              | _ => (false, r)
            let (eds, r2) := takeDigitRun r1
            if eds.isEmpty then none
            else some ((if esign then -(digitsVal eds : Int) else (digitsVal eds : Int)), r2)
          | _ => some (0, cs3)
        match expPart with
        | none => none
        | some (e, cs4) =>
          let mant := digitsVal (ids ++ fds)
          let mag := scaleTrunc mant (e - fds.length)
          some ((if neg then -(mag : Int) else (mag : Int)), cs4)

mutual

/-- Recursive-descent JSON value parser (fuel-indexed). -/
def parseVal (fuel : Nat) (cs : List Char) : Option (JVal × List Char) :=
  match fuel with
  | 0 => none
  | f + 1 =>
    match skipWs cs with
    | [] => none
    | c :: rest =>
      if c = quoteChar then
        match parseStrBody f rest [] with
        | some (s, r) => some (.jstr s, r)
        | none => none
      else if c = lbraceChar then parseObjBody f rest
      else if c = '[' then parseArrBody f rest
      else if c = 't' then
        match matchLitCI rest ['r', 'u', 'e'] with
        | some r => some (.jbool true, r)
        | none => none
      else if c = 'f' then
        match matchLitCI rest ['a', 'l', 's', 'e'] with
        | some r => some (.jbool false, r)
        | none => none
      else if c = 'n' then
        match matchLitCI rest ['u', 'l', 'l'] with
        | some r => some (.jnull, r)
        | none => none
      else if c = '-' || isDigitChar c then
        match parseNum (c :: rest) with
        | some (n, r) => some (.jnum n, r)
        | none => none
      else none

/-- Parse the remainder of an array after `[`. -/
def parseArrBody (fuel : Nat) (cs : List Char) : Option (JVal × List Char) :=
  match fuel with
  | 0 => none
  | f + 1 =>
    match skipWs cs with
    | ']' :: r => some (.jarr [], r)
    | cs1 =>
      match parseVal f cs1 with
      | none => none
      | some (v, r) =>
        match parseArrRest f r [v] with
        | some (xs, r2) => some (.jarr xs, r2)
        | none => none

/-- Elements of an array after the first one (`acc` reversed). -/
def parseArrRest (fuel : Nat) (cs : List Char) (acc : List JVal) :
    Option (List JVal × List Char) :=
  match fuel with
  | 0 => none
  | f + 1 =>
    match skipWs cs with
    | ',' :: r =>
      match parseVal f r with
      | none => none
      | some (v, r2) => parseArrRest f r2 (v :: acc)
    | ']' :: r => some (acc.reverse, r)
    | _ => none

/-- Parse the remainder of an object after the opening brace. -/
def parseObjBody (fuel : Nat) (cs : List Char) : Option (JVal × List Char) :=
  match fuel with
  | 0 => none
  | f + 1 =>
    match skipWs cs with
    | [] => none
    | c :: r =>
      if c = rbraceChar then some (.jobj [], r)
      else
        match parseObjMembers f (c :: r) [] with
        | some (fs, r2) => some (.jobj fs, r2)
        | none => none

/-- Members of an object, starting at a key (`acc` reversed). -/
def parseObjMembers (fuel : Nat) (cs : List Char) (acc : List (String × JVal)) :
    Option (List (String × JVal) × List Char) :=
  match fuel with
  | 0 => none
  | f + 1 =>
    match skipWs cs with
    | c :: r =>
      if c = quoteChar then
        match parseStrBody f r [] with
        | none => none
        | some (k, r2) =>
          match skipWs r2 with
          | ':' :: r3 =>
            match parseVal f r3 with
            | none => none
            | some (v, r4) =>
              match skipWs r4 with
              | ',' :: r5 => parseObjMembers f r5 ((k, v) :: acc)
              | c2 :: r5 =>
                if c2 = rbraceChar then some (((k, v) :: acc).reverse, r5)
                else none
              | [] => none
          | _ => none
      else none
    | [] => none

end

/-- Full-input JSON parse (only trailing whitespace may remain), as
`json.Unmarshal` requires. -/
def jparse (s : String) : Option JVal :=
  match parseVal (s.data.length * 4 + 16) s.data with
  | some (v, rest) => if skipWs rest = [] then some v else none
  | none => none

end gojson

/-! ### Model of the `net/url` routines used by `extractToken`

`extractToken` uses `url.Parse(...).Query().Get("rkey")`, `url.QueryUnescape`
and `url.ParseQuery`.  We model query extraction (the fragment is cut at the
first `#`, the raw query is everything after the first `?`), percent-decoding
with `+` as space (per-byte; multi-byte UTF-8 escapes are decoded per byte,
which agrees with Go on the ASCII inputs the code feeds it), and
`ParseQuery`'s split on `&`, its `;` rejection, and its skip-the-bad-pair
error recovery.  `u.Query()` discards the error (partial result); the
`url.ParseQuery` call site uses the result only when the error is nil. -/

/-- Split a character list on a separator (the separator is dropped). -/
def splitOnChar (sep : Char) : List Char → List (List Char)
  | [] => [[]]
  | c :: r =>
    match splitOnChar sep r with
    | [] => if c = sep then [[], []] else [[c]]
    | s :: ss => if c = sep then [] :: s :: ss else (c :: s) :: ss

/-- Everything after the first occurrence of `sep` (empty if absent). -/
def afterChar (sep : Char) : List Char → List Char
  | [] => []
  | c :: r => if c = sep then r else afterChar sep r

/-- Model of `url.QueryUnescape` on characters: `+` becomes space, `%XY`
decodes, an invalid escape is an error. -/
def queryUnescapeList : List Char → Option (List Char)
  | [] => some []
  | '%' :: h1 :: h2 :: r => do
    let a ← hexDigitVal h1
    let b ← hexDigitVal h2
    let t ← queryUnescapeList r
    some (Char.ofNat (16 * a + b) :: t)
  | '%' :: _ => none
  | '+' :: r => do
    let t ← queryUnescapeList r
    some (' ' :: t)
  | c :: r => do
    let t ← queryUnescapeList r
    some (c :: t)

/-- `url.QueryUnescape` on `String`s. -/
def queryUnescape (s : String) : Option String :=
  (queryUnescapeList s.data).map String.mk

/-- Split a query segment at its first `=` (`strings.Cut` semantics). -/
def cutAtEq : List Char → List Char × List Char
  | [] => ([], [])
  | c :: r =>
    if c = '=' then ([], r)
    else
      let (k, v) := cutAtEq r
      (c :: k, v)

/-- Model of `url.ParseQuery`: returns the decoded pairs in order plus an
error flag; a segment containing `;` or with a bad escape is skipped and sets
the flag, exactly as the Go loop records the error and continues. -/
def parseQueryCore (cs : List Char) : List (String × String) × Bool :=
  (splitOnChar '&' cs).foldl
    (fun acc seg =>
      if seg.isEmpty then acc
      else if seg.contains ';' then (acc.1, true)
      else
        let (k, v) := cutAtEq seg
        match queryUnescapeList k, queryUnescapeList v with
        | some k2, some v2 => (acc.1 ++ [(String.mk k2, String.mk v2)], acc.2)
        | _, _ => (acc.1, true))
    ([], false)

/-- `url.Values.Get`: the first value recorded for the key, `""` if none. -/
def getFirstQ (pairs : List (String × String)) (k : String) : String :=
  ((pairs.find? (fun p => p.1 = k)).map (·.2)).getD ""

/-- The raw query of a URL string: cut the fragment at the first `#`, then
take everything after the first `?` (models the query-extraction part of
`url.Parse`; parse errors of exotic inputs are not modelled — on such inputs
the code's guard fails either way for the claims proved here). -/
def rawQueryOf (s : String) : List Char :=
  match splitOnChar '#' s.data with
  | h :: _ => afterChar '?' h
  | [] => []

/-- `url.Parse(s).Query().Get(k)` (error-tolerant site). -/
def urlQueryGet (s : String) (k : String) : String :=
  getFirstQ (parseQueryCore (rawQueryOf s)).1 k

/-! ### Model of `strconv.Unquote` (used once to strip a JSON-escaped payload) -/

/-- Decode the body of a Go double-quoted literal; the closing quote must end
the input.  Handles the simple escapes plus `\xHH`, `\uXXXX` and octal;
a bare quote, a newline or an unknown escape is an error. -/
def unquoteDqBody (fuel : Nat) (cs : List Char) (acc : List Char) :
    Option (List Char) :=
  match fuel with
  | 0 => none
  | f + 1 =>
    match cs with
    | [] => none
    | c :: rest =>
      if c = quoteChar then if rest.isEmpty then some acc.reverse else none
      else if c = '\n' then none
      else if c = backslashChar then
        match rest with
        | [] => none
        | e :: r2 =>
          if e = 'a' then unquoteDqBody f r2 (Char.ofNat 7 :: acc)
          else if e = 'b' then unquoteDqBody f r2 (Char.ofNat 8 :: acc)
          else if e = 'f' then unquoteDqBody f r2 (Char.ofNat 12 :: acc)
          else if e = 'n' then unquoteDqBody f r2 ('\n' :: acc)
          else if e = 'r' then unquoteDqBody f r2 ('\r' :: acc)
          else if e = 't' then unquoteDqBody f r2 ('\t' :: acc)
          else if e = 'v' then unquoteDqBody f r2 (Char.ofNat 11 :: acc)
          else if e = backslashChar then unquoteDqBody f r2 (backslashChar :: acc)
          else if e = quoteChar then unquoteDqBody f r2 (quoteChar :: acc)
          else if e = 'x' then
            match r2 with
            | h1 :: h2 :: r3 =>
              match hexDigitVal h1, hexDigitVal h2 with
              | some a, some b => unquoteDqBody f r3 (Char.ofNat (16 * a + b) :: acc)
              | _, _ => none
            | _ => none
          else if e = 'u' then
            match gojson.parseHex4 r2 with
            | some (n, r3) => unquoteDqBody f r3 (Char.ofNat n :: acc)
            | none => none
          else if '0' ≤ e && e ≤ '7' then
            match r2 with
            | o1 :: o2 :: r3 =>
              if ('0' ≤ o1 && o1 ≤ '7') && ('0' ≤ o2 && o2 ≤ '7') then
                unquoteDqBody f r3
                  (Char.ofNat (((e.toNat - 48) * 8 + (o1.toNat - 48)) * 8 + (o2.toNat - 48)) :: acc)
              else none
            | _ => none
          else none
      else unquoteDqBody f rest (c :: acc)

/-- Model of `strconv.Unquote`: a backquoted raw string (no inner backquote,
carriage returns dropped), a double-quoted string with escapes, or a
single-quoted single character; anything else is an error. -/
def goUnquote (s : String) : Option String :=
  match s.data with
  | [] => none
  | [_] => none
  | c :: rest =>
    if c = backtickChar then
      match rest.reverse with
      | l :: mid =>
        if l = backtickChar && !(mid.contains backtickChar) then
          some (String.mk ((mid.reverse).filter (fun x => x ≠ '\r')))
        else none
      | [] => none
    else if c = quoteChar then
      (unquoteDqBody (rest.length + 1) rest []).map String.mk
    else if c = '\'' then
      match rest with
      | [b, q] => if q = '\'' && b ≠ '\'' && b ≠ backslashChar then some (String.mk [b]) else none
      | _ => none
    else none

/-! ### The resource-key cache (`internal/rkey/cache.go`, current document) -/

namespace rkey

/-- `tokenRe.MatchString s`: the whole string is one or more token characters. -/
def tokenMatch (s : String) : Bool := !s.data.isEmpty && s.data.all isTokenChar

/-- `strings.TrimPrefix`. -/
def trimPfxStr (s p : String) : String :=
  if listStartsWith p.data s.data then String.mk (s.data.drop p.data.length) else s

/-- One attempted match of `fieldTokenRe` =
`(?i)"(?:rkey|key)"\s*:\s*"([^"]+)"` at the current position; returns the
capture and the rest after the match. -/
def tryFieldMatch (cs : List Char) : Option (String × List Char) :=
  match cs with
  | [] => none
  | c :: r1 =>
    if c ≠ quoteChar then none
    else
      match (matchLitCI r1 ['r', 'k', 'e', 'y']).orElse (fun _ => matchLitCI r1 ['k', 'e', 'y']) with
      | none => none
      | some r2 =>
        match r2 with
        | [] => none
        | q2 :: r3 =>
          if q2 ≠ quoteChar then none
          else
            match (r3.dropWhile isReWs) with
            | ':' :: r4 =>
              match r4.dropWhile isReWs with
              | q3 :: r5 =>
                if q3 ≠ quoteChar then none
                else
                  let cap := r5.takeWhile (fun x => x ≠ quoteChar)
                  let r6 := r5.dropWhile (fun x => x ≠ quoteChar)
                  if cap.isEmpty then none
                  else
                    match r6 with
                    | q4 :: r7 => if q4 = quoteChar then some (String.mk cap, r7) else none
                    | [] => none
              | [] => none
            | _ => none

/-- `fieldTokenRe.FindAllStringSubmatch raw -1`: all (leftmost,
non-overlapping) captures in order. -/
def fieldTokenScan (fuel : Nat) (cs : List Char) : List String :=
  match fuel with
  | 0 => []
  | f + 1 =>
    match cs with
    | [] => []
    | c :: rest =>
      match tryFieldMatch (c :: rest) with
      | some (cap, r) => cap :: fieldTokenScan f r
      | none => fieldTokenScan f rest

/-- First match of `rkeyParamRe = (?i)(?:^|[&?])rkey=([A-Za-z0-9_\-]{8,})`;
`anchored` says the current position may start a match (input start or right
after `&`/`?`). -/
def rkeyScanAux (fuel : Nat) (cs : List Char) (anchored : Bool) : Option String :=
  match fuel with
  | 0 => none
  | f + 1 =>
    match cs with
    | [] => none
    | c :: rest =>
      let here : Option String :=
        if anchored then
          match matchLitCI (c :: rest) ['r', 'k', 'e', 'y', '='] with
          | some r2 =>
            let (run, _) := takeTokenRun r2
            if 8 ≤ run.length then some (String.mk run) else none
          | none => none
        else none
      match here with
      | some v => some v
      | none => rkeyScanAux f rest (c = '&' || c = '?')

/-- `rkeyParamRe.FindStringSubmatch` capture on `"&" ++ s` as the code calls it. -/
def rkeyScan (s : List Char) : Option String :=
  rkeyScanAux (s.length + 2) ('&' :: s) true

/-- The `url.ParseQuery` branch of `extractToken`: consulted only when that
parse is error-free, and guarded by the token-class and length checks. -/
def pqToken (s2 : String) : String :=
  match parseQueryCore s2.data with
  | (pairs, bad) =>
    if bad then ""
    else
      let q2 := getFirstQ pairs "rkey"
      if q2 ≠ "" && tokenMatch q2 && 8 ≤ q2.length then q2 else ""

/-- The final `rkeyParamRe` branch of `extractToken`. -/
def reToken (s2 : String) : String :=
  match rkeyScan s2.data with
  | some m =>
    let q3 := strTrim m
    if tokenMatch q3 && 8 ≤ q3.length then q3 else ""
  | none => ""

/-- `extractToken` from `cache.go`: a trimmed bare token of length ≥ 8, else
the `rkey` query parameter via `url.Parse`, else after an optional
`QueryUnescape` and a `?`/`&` strip the `rkey` key via `url.ParseQuery`
(`pqToken`), else the first `rkeyParamRe` capture (`reToken`); every
non-empty result passes the token-class and length-8 guards. -/
def extractToken (s0 : String) : String :=
  let s := strTrim s0
  if s = "" then ""
  else if tokenMatch s && 8 ≤ s.length then s
  else
    let q := urlQueryGet s "rkey"
    if q ≠ "" && tokenMatch q && 8 ≤ q.length then q
    else
      let s1 :=
        match queryUnescape s with
        | some unq => if strTrim unq ≠ "" then strTrim unq else s
        | none => s
      let s2 := trimPfxStr (trimPfxStr s1 "?") "&"
      if pqToken s2 ≠ "" then pqToken s2 else reToken s2

/-- `normalizeType`: a JSON number is truncated by `int(...)`; a string is
lowercased, trimmed and mapped to the known classes; anything else is 0. -/
def normalizeType (v : gojson.JVal) : Int :=
  match v with
  | .jnum n => n
  | .jstr t =>
    let s := strTrim (strLower t)
    if s = "10" || s = "image" || s = "media" || s = "private" then 10
    else if s = "20" || s = "file" || s = "offline" || s = "group" then 20
    else 0
  | _ => 0

/-- `firstNonEmpty`. -/
def firstNonEmpty (a b : String) : String := if strTrim a ≠ "" then a else b

/-- The decoded form of the anonymous Go struct
`struct\x7b Type interface\x7b\x7d; RKey string; Key string \x7d`. -/
structure RItem where
  typeV : gojson.JVal := .jnull
  rkeyV : String := ""
  keyV : String := ""

/-- Assign one JSON object member to the struct (tag match is ASCII
case-insensitive, `null` leaves the field, a non-string in a string field
fails the whole decode, unknown members are ignored). -/
def applyField (it : RItem) (k : String) (v : gojson.JVal) : Option RItem :=
  if strLower k = "type" then some { it with typeV := v }
  else if strLower k = "rkey" then
    match v with
    | .jstr s => some { it with rkeyV := s }
    | .jnull => some it
    | _ => none
  else if strLower k = "key" then
    match v with
    | .jstr s => some { it with keyV := s }
    | .jnull => some it
    | _ => none
  else some it

/-- Decode one array element into the struct (`null` gives the zero value). -/
def decodeItem : gojson.JVal → Option RItem
  | .jobj fs => fs.foldlM (fun it kv => applyField it kv.1 kv.2) {}
  | .jnull => some {}
  | _ => none

/-- Decode a JSON value as the slice `[]struct\x7b...\x7d`. -/
def decodeItems : gojson.JVal → Option (List RItem)
  | .jarr xs => xs.mapM decodeItem
  | .jnull => some []
  | _ => none

/-- `json.Unmarshal(raw, &arr)` for the flat-array shape. -/
def unmarshalArr (raw : String) : Option (List RItem) :=
  match gojson.jparse raw with
  | some v => decodeItems v
  | none => none

/-- `json.Unmarshal(raw, &obj)` for the `data`-wrapped shape (later duplicate
`data` members overwrite, other members are ignored). -/
def unmarshalWrapped (raw : String) : Option (List RItem) :=
  match gojson.jparse raw with
  | some (.jobj fs) =>
    fs.foldlM (fun acc kv => if strLower kv.1 = "data" then decodeItems kv.2 else some acc) []
  | some .jnull => some []
  | some _ => none
  | none => none

/-- A cache entry: token class and key value. -/
structure Entry where
  etype : Int
  key : String
deriving DecidableEq

/-- The per-item conversion both JSON shapes perform. -/
def toEntry (it : RItem) : Option Entry :=
  let k := extractToken (firstNonEmpty it.rkeyV it.keyV)
  if k = "" then none else some { etype := normalizeType it.typeV, key := k }

/-- Shape 1 of `parseEntries`: the flat JSON array, used when the unmarshal
succeeds on a non-empty array and at least one element carries a token. -/
def shape1Entries (raw : String) : List Entry :=
  match unmarshalArr raw with
  | some items => if items.length > 0 then items.filterMap toEntry else []
  | none => []

/-- Shape 2 of `parseEntries`: the same array under a `data` member. -/
def shape2Entries (raw : String) : List Entry :=
  match unmarshalWrapped raw with
  | some items => if items.length > 0 then items.filterMap toEntry else []
  | none => []

/-- Shape 3 of `parseEntries`: the generic `fieldTokenRe` scan over the raw
text for quoted `rkey`/`key` members. -/
def shape3Entries (raw : String) : List Entry :=
  (fieldTokenScan (raw.data.length + 1) raw.data).filterMap
    (fun m =>
      let k := extractToken m
      if k = "" then none else some { etype := 0, key := k })

/-- `parseEntries`: flat array shape, then `data`-wrapped shape, then the
generic `fieldTokenRe` scan; each shape is used only when it yields at least
one entry. -/
def parseEntries (raw : String) : List Entry :=
  if shape1Entries raw ≠ [] then shape1Entries raw
  else if shape2Entries raw ≠ [] then shape2Entries raw
  else shape3Entries raw

/-- The cache state: the `byType` map (modelled as an association list in
first-insertion order, one admissible iteration order of the Go map) and the
unclassified `fallback` slot. -/
structure Cache where
  byType : List (Int × String) := []
  fallback : String := ""
deriving DecidableEq

/-- The initial (empty) cache. -/
def emptyCache : Cache := {}

/-- Go map read `byType[t]` (missing key reads as `""`). -/
def lookupType (c : Cache) (t : Int) : String :=
  ((c.byType.find? (fun p => p.1 = t)).map (·.2)).getD ""

/-- Go map write `byType[t] = v` (overwrite in place, else append). -/
def setType : List (Int × String) → Int → String → List (Int × String)
  | [], t, v => [(t, v)]
  | p :: r, t, v => if p.1 = t then (t, v) :: r else p :: setType r t v

/-- `setEntry`: compare-and-set of the per-class slot (classified entries
only) and of the fallback slot (every entry). -/
def setEntry (e : Entry) (c : Cache) : String × Bool × Cache :=
  if e.key = "" then ("", false, c)
  else
    let s1 : Cache × Bool :=
      if e.etype ≠ 0 then
        if lookupType c e.etype ≠ e.key then
          ({ c with byType := setType c.byType e.etype e.key }, true)
        else (c, false)
      else (c, false)
    let s2 : Cache × Bool :=
      if s1.1.fallback ≠ e.key then ({ s1.1 with fallback := e.key }, true)
      else (s1.1, false)
    (e.key, s1.2 || s2.2, s2.1)

/-- The entry loop of `UpdateFromRaw`, with the loop variables explicit:
first non-empty key, OR of the change flags, current cache. -/
def runEntriesAux : List Entry → String → Bool → Cache → String × Bool × Cache
  | [], first, changed, c => (first, changed, c)
  | e :: es, first, changed, c =>
    if e.key = "" then runEntriesAux es first changed c
    else
      let first2 := if first = "" then e.key else first
      let r := setEntry e c
      runEntriesAux es first2 (changed || r.2.1) r.2.2

/-- The entry loop of `UpdateFromRaw` from its initial accumulators. -/
def runEntries (es : List Entry) (c : Cache) : String × Bool × Cache :=
  runEntriesAux es "" false c

/-- The input normalisation of `UpdateFromRaw`: trim, then one optional
`strconv.Unquote` whose trimmed result replaces the input when it is
non-empty and different. -/
def normRaw (raw : String) : String :=
  let raw1 := strTrim raw
  match goUnquote raw1 with
  | some unq =>
    let u := strTrim unq
    if u ≠ "" && u ≠ raw1 then u else raw1
  | none => raw1

/-- `UpdateFromRaw` (current document of `cache.go`): trim, one optional
`strconv.Unquote`, `parseEntries`, and only if that yields nothing the raw
token/url fallback via `extractToken`. -/
def UpdateFromRaw (raw : String) (c : Cache) : String × Bool × Cache :=
  if strTrim raw = "" then ("", false, c)
  else
    let raw2 := normRaw raw
    let entries := parseEntries raw2
    if entries.isEmpty then
      let v := extractToken raw2
      if v ≠ "" then
        let r := setEntry { etype := 0, key := v } c
        (r.1, r.2.1, r.2.2)
      else ("", false, c)
    else runEntries entries c

/-- `Get`: class 10, else class 20, else the fallback. -/
def Get (c : Cache) : String :=
  if lookupType c 10 ≠ "" then lookupType c 10
  else if lookupType c 20 ≠ "" then lookupType c 20
  else c.fallback

/-- `GetByType`. -/
def GetByType (c : Cache) (t : Int) : String := lookupType c t

/-- The `push` closure of `candidatesByOrder` (skip empty, skip seen). -/
def pushVal (acc : List String) (v : String) : List String :=
  if v = "" then acc else if v ∈ acc then acc else acc ++ [v]

/-- `candidatesByOrder`: the ordered classes, then every `byType` value (in
the model's fixed iteration order), then the fallback, de-duplicated. -/
def candidatesByOrder (order : List Int) (c : Cache) : List String :=
  let acc := order.foldl (fun a t => pushVal a (lookupType c t)) []
  let acc := c.byType.foldl (fun a p => pushVal a p.2) acc
  pushVal acc c.fallback

/-- Does the URL ask for the large-file/offline key order? -/
def isOfflineURL (rawURL : String) : Bool :=
  let low := strLower (strTrim rawURL)
  strContains low "weiyun" || strContains low "offline" || strContains low "ftn"

/-- `CandidatesForURL`. -/
def CandidatesForURL (rawURL : String) (c : Cache) : List String :=
  candidatesByOrder (if isOfflineURL rawURL then [20, 10] else [10, 20]) c

/-- Cache states reachable from the empty cache through `UpdateFromRaw`. -/
inductive Reachable : Cache → Prop where
  | base : Reachable emptyCache
  | step (raw : String) {c : Cache} : Reachable c → Reachable (UpdateFromRaw raw c).2.2

end rkey

/-! ### The publication worker (`internal/task/worker.go`)

`pollAndPublish` is embedded as a function of the claimed post and of an
environment describing one publish attempt's externals (renderer
availability/outcome, the `qzone.Client.Publish` outcome, the wall clock used
for the placeholder `tid`).  Its observable behaviour is the list of events it
performs: sleeps, publish attempts with the built text and images, and store
writes. -/

namespace task

/-- Submission status (`internal/model`; the five values appear verbatim in
the web layer of the repository). -/
inductive PStatus where
  | pending
  | approved
  | rejected
  | failed
  | published
deriving DecidableEq

/-- A submission (`model.Post`), restricted to the fields the worker touches. -/
structure Post where
  id : Int := 0
  name : String := ""
  text : String := ""
  images : List String := []
  anon : Bool := false
  status : PStatus := .pending
  reason : String := ""
  tid : String := ""
deriving DecidableEq

/-- Modelled from the spec: `model.Post.ShowName` (the `internal/model`
package is not under `src/`); the display name used when publishing, which
hides the author of an anonymous submission. -/
def showName (p : Post) : String := if p.anon then "匿名" else p.name

/-- Outcome of one `qzone.Client.Publish` call: transport error, or a
response with its `OK`/`Code`/`Message` and its string fields. -/
inductive PubOutcome where
  | err (msg : String)
  | resp (ok : Bool) (code : Int) (msg : String) (fields : List (String × String))
deriving DecidableEq

/-- `resp.GetString k` (missing field reads as `""`). -/
def getStringF (fields : List (String × String)) (k : String) : String :=
  ((fields.find? (fun p => p.1 = k)).map (·.2)).getD ""

/-- Externals of one publish attempt. -/
structure PubEnv where
  rendererAvail : Bool := false
  renderOk : Bool := false
  outcome : PubOutcome := .err ""
  now : Int := 0
deriving DecidableEq

/-- Observable worker actions. -/
inductive WEvent where
  | sleep (d : Nat)
  | attempt (i : Nat)
  | call (text : String) (hasBytes : Bool) (urls : List String)
  | save (p : Post)
deriving DecidableEq

/-- `config.WorkerConfig`. -/
structure WorkerConfig where
  workers : Nat := 1
  pollInterval : Nat := 0
  retryCount : Nat := 0
  retryDelay : Nat := 0
  rateLimit : Nat := 0
deriving DecidableEq

/-- `Worker.publish`: build the text (author header unless anonymous or
disabled), render the screenshot when the renderer is available and succeeds,
call `Publish`; on success backfill `tid` from the `tid` or `t1_tid` response
field (placeholder from the clock when absent), set `published`, persist.
Returns the updated post, the events, and `none` on success or the error
message. -/
def publish (env : PubEnv) (showAuthor : Bool) (p : Post) :
    Post × List WEvent × Option String :=
  let text :=
    if showAuthor && !p.anon then "【来自 " ++ showName p ++ " 的投稿】\n\n" ++ p.text
    else p.text
  let hasBytes := env.rendererAvail && env.renderOk
  let callEv := WEvent.call text hasBytes p.images
  match env.outcome with
  | .err m => (p, [callEv], some ("publish: " ++ m))
  | .resp ok code msg fields =>
    if !ok then
      (p, [callEv], some ("publish failed: code=" ++ toString code ++ ", msg=" ++ msg))
    else
      let tid :=
        if getStringF fields "tid" ≠ "" then getStringF fields "tid"
        else if getStringF fields "t1_tid" ≠ "" then getStringF fields "t1_tid"
        else "published_" ++ toString env.now
      let p2 := { p with tid := tid, status := .published }
      (p2, [callEv, WEvent.save p2], none)

/-- The retry loop of `Worker.pollAndPublish`: attempt index `i`, number of
attempts still allowed, last error seen.  Returns the events and `none` on
success / the last error after exhaustion. -/
def runLoop (envs : Nat → PubEnv) (showAuthor : Bool) (delay : Nat) (p : Post) :
    Nat → Nat → Option String → List WEvent × Option String
  | _, 0, lastErr => ([], lastErr)
  | i, remaining + 1, _ =>
    let pre : List WEvent := if i > 0 then [.sleep delay] else []
    let r := publish (envs i) showAuthor p
    match r.2.2 with
    | none => (pre ++ [WEvent.attempt i] ++ r.2.1, none)
    | some e =>
      let rest := runLoop envs showAuthor delay p (i + 1) remaining (some e)
      (pre ++ [WEvent.attempt i] ++ r.2.1 ++ rest.1, rest.2)

/-- `Worker.pollAndPublish` once a post has been claimed: up to
`retryCount + 1` publish attempts with `retryDelay` sleeps between them;
when all fail, persist the post as `failed` with the last error in the
reason. -/
def pollAndPublish (cfg : WorkerConfig) (showAuthor : Bool) (envs : Nat → PubEnv)
    (p : Post) : List WEvent :=
  let r := runLoop envs showAuthor cfg.retryDelay p 0 (cfg.retryCount + 1) none
  match r.2 with
  | none => r.1
  | some e => r.1 ++ [WEvent.save { p with status := .failed, reason := "发布失败: " ++ e }]

/-! ### The pool-wide rate limiter (`waitRateLimit` / `lastPublish`)

The shared state is the mutex-protected `lastPublish` timestamp.  A worker's
publish cycle performs, in order: a protected read of `lastPublish`
(`.read w v t` — `v` is exactly the shared value at that moment), the start
of the `Publish` call after the sleep `waitRateLimit` computes
(`.start w t` with `t ≥ v + I` when `v` was set), and on success the
protected write of the completion time (`.success w t`, which installs
`some t` as the shared value).  A trace is any interleaving of such cycles
with a global non-decreasing clock; `rlRun` validates a trace step by step
and collects, per successful cycle, the time its `Publish` call started. -/

/-- Position of one worker inside its cycle. -/
inductive WPhase where
  | waited (v : Option Nat)
  | started (t0 : Nat)
deriving DecidableEq

/-- Shared rate-limiter state plus the per-worker phases. -/
structure RLState where
  now : Nat := 0
  last : Option Nat := none
  pcs : List (Nat × WPhase) := []
deriving DecidableEq

/-- One scheduled action of worker `w` at absolute time `t`. -/
inductive RLEvent where
  | read (w : Nat) (v : Option Nat) (t : Nat)
  | start (w : Nat) (t : Nat)
  | success (w : Nat) (t : Nat)
deriving DecidableEq

/-- The phase of worker `w` (`none` = idle, between cycles). -/
def phaseOf (st : RLState) (w : Nat) : Option WPhase :=
  ((st.pcs.find? (fun q => q.1 = w)).map (·.2))

/-- Record worker `w`'s phase. -/
def setPC (pcs : List (Nat × WPhase)) (w : Nat) (x : WPhase) : List (Nat × WPhase) :=
  (pcs.filter (fun q => q.1 ≠ w)) ++ [(w, x)]

/-- Drop worker `w`'s phase (back to idle). -/
def delPC (pcs : List (Nat × WPhase)) (w : Nat) : List (Nat × WPhase) :=
  pcs.filter (fun q => q.1 ≠ w)

/-- One validated step; emits the cycle's start time on success events. -/
def rlStep (I : Nat) (st : RLState) : RLEvent → Option (RLState × Option Nat)
  | .read w v t =>
    if st.now ≤ t ∧ phaseOf st w = none ∧ v = st.last then
      some ({ st with now := t, pcs := setPC st.pcs w (.waited v) }, none)
    else none
  | .start w t =>
    match phaseOf st w with
    | some (.waited v) =>
      if st.now ≤ t ∧ (match v with | none => 0 | some t0 => t0 + I) ≤ t then
        some ({ st with now := t, pcs := setPC st.pcs w (.started t) }, none)
      else none
    | _ => none
  | .success w t =>
    match phaseOf st w with
    | some (.started t0) =>
      if st.now ≤ t then
        some ({ st with now := t, last := some t, pcs := delPC st.pcs w }, some t0)
      else none
    | _ => none

/-- Validate a trace and collect the start times of the successful publish
calls (in success order). -/
def rlRun (I : Nat) : List RLEvent → RLState → Option (RLState × List Nat)
  | [], st => some (st, [])
  | e :: es, st =>
    match rlStep I st e with
    | none => none
    | some (st2, emit) =>
      match rlRun I es st2 with
      | none => none
      | some (st3, outs) =>
        some (st3, (match emit with | some t0 => [t0] | none => []) ++ outs)

/-- Start times of successful publishes of a valid trace, from the initial
state (`none` when the trace is not a valid interleaving). -/
def rlStarts (I : Nat) (tr : List RLEvent) : Option (List Nat) :=
  (rlRun I tr {}).map (·.2)

/-! ### The credential lifecycle manager (`internal/task/keepalive.go`) -/

/-- `config.QzoneConfig`, restricted to the fields this core reads. -/
structure QzoneConfig where
  keepAlive : Int := 0
  cookie : String := ""
  cookieFile : String := ""
  autoLogin : Bool := false
deriving DecidableEq

/-- `config.BotConfig`, restricted to the managed group. -/
structure BotConfig where
  manageGroup : Int := 0
deriving DecidableEq

/-- A connected bot session: its `GetCookies("qzone.qq.com")` answer and
whether `client.UpdateCookie` accepts that answer. -/
structure BotSession where
  cookie : String := ""
  updateOk : Bool := true
deriving DecidableEq

/-- Observable actions of the credential manager. -/
inductive KAEvent where
  | updateCookie (c : String) (ok : Bool)
  | fileWrite (path : String) (content : String)
  | fileRemove (path : String)
  | sendGroup (g : Int) (text : String)
  | sleep (secs : Nat)
deriving DecidableEq

/-- `SaveCookie`: write the cookie file when a path is configured. -/
def SaveCookie (cfg : QzoneConfig) (cookie : String) : List KAEvent :=
  if cfg.cookieFile = "" then [] else [.fileWrite cfg.cookieFile cookie]

/-- `KeepAlive.tryRefreshFromBot`: scan the connected sessions in order; an
empty cookie is skipped, a cookie `UpdateCookie` rejects is skipped, the
first accepted cookie is saved and stops the scan. -/
def tryRefreshFromBot (cfg : QzoneConfig) : List BotSession → Bool × List KAEvent
  | [] => (false, [])
  | b :: bs =>
    if b.cookie = "" then tryRefreshFromBot cfg bs
    else if !b.updateOk then
      let r := tryRefreshFromBot cfg bs
      (r.1, .updateCookie b.cookie false :: r.2)
    else (true, [.updateCookie b.cookie true] ++ SaveCookie cfg b.cookie)

/-- The notification text of `KeepAlive.check`. -/
def expiredMsg : String := "⚠️ QQ空间Cookie已过期，请使用 /扫码 或 /刷新cookie 重新登录"

/-- `KeepAlive.notifyAdmin`: one message through the first connected bot,
only when a manage group is configured. -/
def notifyAdmin (manageGroup : Int) (bots : List BotSession) (text : String) :
    List KAEvent :=
  if manageGroup ≤ 0 then []
  else
    match bots with
    | [] => []
    | _ :: _ => [.sendGroup manageGroup text]

/-- `KeepAlive.check`: probe (`GetMyFeeds`) outcome given as `probeOk`; on
failure refresh from the bots, and only when that fails notify the admins. -/
def check (probeOk : Bool) (qz : QzoneConfig) (bot : BotConfig)
    (bots : List BotSession) : List KAEvent :=
  if probeOk then []
  else
    let r := tryRefreshFromBot qz bots
    if r.1 then r.2
    else r.2 ++ notifyAdmin bot.manageGroup bots expiredMsg

/-! ### Startup credential acquisition (`TryGetCookie` / `tryQRLogin`) -/

/-- Result of one `qzone.PollQRLogin` call. -/
inductive LoginState where
  | success
  | expired
  | scanned
  | waiting
deriving DecidableEq

/-- One poll outcome: transport error, or a login state with its cookie. -/
inductive PollResult where
  | perr (m : String)
  | pstate (s : LoginState) (cookie : String)

/-- Externals of startup acquisition: the cookie-file read, the connected
bots' `GetCookies` answers in order, the `GetQRCode` outcome and the poll
results by attempt index. -/
structure StartEnv where
  fileRead : Option String := none
  botCookies : List String := []
  qrOk : Bool := true
  qrErr : String := ""
  polls : Nat → PollResult := fun _ => .pstate .waiting ""

/-- The 120-iteration poll loop of `tryQRLogin` (attempt index, remaining
attempts): sleep 2s, poll, and stop on success, expiry, or a poll error. -/
def qrLoop (cfg : QzoneConfig) (env : StartEnv) :
    Nat → Nat → Except String String × List KAEvent
  | _, 0 => (.error "登录超时", [])
  | i, fuel + 1 =>
    let pre : List KAEvent := [.sleep 2]
    match env.polls i with
    | .perr m => (.error ("登录轮询失败: " ++ m), pre)
    | .pstate .success cookie =>
      (.ok cookie, pre ++ SaveCookie cfg cookie ++ [.fileRemove "qrcode.png"])
    | .pstate .expired _ => (.error "二维码已过期", pre)
    | .pstate .scanned _ =>
      let r := qrLoop cfg env (i + 1) fuel
      (r.1, pre ++ r.2)
    | .pstate .waiting _ =>
      let r := qrLoop cfg env (i + 1) fuel
      (r.1, pre ++ r.2)

/-- `tryQRLogin`: fetch the QR code, save its image, poll up to 120 times. -/
def tryQRLogin (cfg : QzoneConfig) (env : StartEnv) :
    Except String String × List KAEvent :=
  if !env.qrOk then (.error ("获取二维码失败: " ++ env.qrErr), [])
  else
    let r := qrLoop cfg env 0 120
    (r.1, .fileWrite "qrcode.png" "<qr image>" :: r.2)

/-- `TryGetCookie`: configured cookie, else non-empty cookie file, else the
first non-empty bot `GetCookies` (saved), else QR login when enabled. -/
def TryGetCookie (cfg : QzoneConfig) (env : StartEnv) :
    Except String String × List KAEvent :=
  if cfg.cookie ≠ "" then (.ok cfg.cookie, [])
  else
    let fromFile : Option String :=
      if cfg.cookieFile ≠ "" then
        match env.fileRead with
        | some d => if d ≠ "" then some d else none
        | none => none
      else none
    match fromFile with
    | some d => (.ok d, [])
    | none =>
      match env.botCookies.find? (fun c => c ≠ "") with
      | some c => (.ok c, SaveCookie cfg c)
      | none =>
        if cfg.autoLogin then tryQRLogin cfg env
        else (.error "未能获取有效Cookie, 请通过 /扫码 命令或Web管理页面扫码登录", [])

end task

/-! ### Derived definitions used by the claim statements -/

namespace rkey

/-- De-duplication keeping the first occurrence (the specification-side
description of what the `seen` set in `candidatesByOrder` produces). -/
def dedupFirst : List String → List String
  | [] => []
  | x :: xs => x :: dedupFirst (xs.filter (fun v => v ≠ x))
termination_by l => l.length
decreasing_by
  simp only [List.length_cons]
  exact Nat.lt_succ_of_le (List.length_filter_le _ _)

/-- The entries `UpdateFromRaw` effectively feeds to `setEntry` for a given
input: the parsed entries, or the single unclassified direct-token entry, or
none. -/
def effEntries (raw : String) : List Entry :=
  if strTrim raw = "" then []
  else
    let r := normRaw raw
    let es := parseEntries r
    if es.isEmpty then
      let v := extractToken r
      if v ≠ "" then [{ etype := 0, key := v }] else []
    else es

/-- A well-formed stored key: token character set and length at least 8. -/
def goodKey (s : String) : Prop := s.data.all isTokenChar = true ∧ 8 ≤ s.length

/-- Every slot of the cache holds only well-formed keys (the fallback may
still be unset). -/
def CacheGood (c : Cache) : Prop :=
  (∀ p ∈ c.byType, goodKey p.2) ∧ (c.fallback = "" ∨ goodKey c.fallback)

end rkey

namespace task

/-- The worker a rate-limiter event belongs to. -/
def widOf : RLEvent → Nat
  | .read w _ _ => w
  | .start w _ => w
  | .success w _ => w

/-- Contents written to files by a list of manager events. -/
def persistedOf (evs : List KAEvent) : List String :=
  evs.filterMap (fun e => match e with | .fileWrite _ c => some c | _ => none)

/-- Number of chat notifications in a list of manager events. -/
def notifyCount (evs : List KAEvent) : Nat :=
  evs.countP (fun e => match e with | .sendGroup _ _ => true | _ => false)

/-- A poll outcome that keeps the QR loop running. -/
def nonterminalPoll : PollResult → Prop
  | .pstate .scanned _ => True
  | .pstate .waiting _ => True
  | _ => False

instance : DecidablePred nonterminalPoll := by
  intro p
  unfold nonterminalPoll
  match p with
  | .perr _ => exact inferInstanceAs (Decidable False)
  | .pstate .scanned _ => exact inferInstanceAs (Decidable True)
  | .pstate .waiting _ => exact inferInstanceAs (Decidable True)
  | .pstate .success _ => exact inferInstanceAs (Decidable False)
  | .pstate .expired _ => exact inferInstanceAs (Decidable False)

/-- Is the event a publish attempt? -/
def isAttemptEv : WEvent → Bool
  | .attempt _ => true
  | _ => false

/-- The initial rate-limiter state (process start: zero `lastPublish`). -/
def rlInit : RLState := {}

/-- Earliest time at which worker `w`'s next successful publish can have
started, given the current shared state (used in the single-worker spacing
proof). -/
def rlBound (I : Nat) (w : Nat) (st : RLState) : Nat :=
  match phaseOf st w with
  | some (.started t0) => t0
  | some (.waited v) => (match v with | none => 0 | some u => u + I)
  | none => (match st.last with | none => 0 | some u => u + I)

end task

/-! ### Lemmas about `setEntry` and the entry loop -/

namespace rkey

theorem setEntry_false_eq (e : Entry) (c : Cache) (h : (setEntry e c).2.1 = false) :
    (setEntry e c).2.2 = c := by
  simp only [setEntry] at h ⊢
  split_ifs at h ⊢ <;> simp_all

theorem runEntriesAux_changed_false (es : List Entry) :
    ∀ (f : String) (ch : Bool) (c : Cache),
      (runEntriesAux es f ch c).2.1 = false →
      ch = false ∧ (runEntriesAux es f ch c).2.2 = c := by
  induction es with
  | nil => intro f ch c h; exact ⟨h, rfl⟩
  | cons e es ih =>
    intro f ch c h
    simp only [runEntriesAux] at h ⊢
    split_ifs at h ⊢ with hk
    · exact ih f ch c h
    all_goals
      obtain ⟨h1, h2⟩ := ih _ _ _ h
      have hx := Bool.or_eq_false_iff.mp h1
      have hc := setEntry_false_eq e c hx.2
      refine ⟨hx.1, ?_⟩
      rw [hc] at h2 ⊢
      exact h2

end rkey

/-- C9: when `UpdateFromRaw` reports `changed = false` every slot of the
cache is exactly as before the call; in particular an empty or
whitespace-only input returns `("", false)` and leaves the cache unchanged. -/
theorem c9_updateFromRaw_frame (raw : String) (c : rkey.Cache) :
    ((rkey.UpdateFromRaw raw c).2.1 = false → (rkey.UpdateFromRaw raw c).2.2 = c)
    ∧ (strTrim raw = "" → rkey.UpdateFromRaw raw c = ("", false, c)) := by
  constructor
  · intro h
    simp only [rkey.UpdateFromRaw] at h ⊢
    split_ifs at h ⊢
    · rfl
    · exact rkey.setEntry_false_eq _ _ h
    · rfl
    · exact (rkey.runEntriesAux_changed_false _ _ _ _ h).2
  · intro h
    simp [rkey.UpdateFromRaw, h]

/-- Witness for C9 at the whitespace-only input. -/
theorem c9_updateFromRaw_frame_witness :
    rkey.UpdateFromRaw "  " rkey.emptyCache = ("", false, rkey.emptyCache) :=
  (c9_updateFromRaw_frame "  " rkey.emptyCache).2 (by decide)

/-! ### Wellformedness of every stored key (towards C10) -/

namespace rkey

theorem tokenMatch_all {s : String} (h : tokenMatch s = true) :
    s.data.all isTokenChar = true := by
  simp only [tokenMatch, Bool.and_eq_true] at h
  exact h.2

theorem goodKey_ne_empty {s : String} (h : goodKey s) : s ≠ "" := by
  intro he
  subst he
  exact absurd h.2 (by decide)

theorem good_of_guard {q : String}
    (h : (tokenMatch q && decide (8 ≤ q.length)) = true) : goodKey q := by
  simp only [Bool.and_eq_true, decide_eq_true_eq] at h
  exact ⟨tokenMatch_all h.1, h.2⟩

theorem pqToken_good (s2 : String) : pqToken s2 = "" ∨ goodKey (pqToken s2) := by
  simp only [pqToken]
  repeat' split
  all_goals
    first
    | (left; rfl)
    | (right
       rename_i hguard
       simp only [Bool.and_eq_true, decide_eq_true_eq] at hguard
       exact ⟨tokenMatch_all hguard.1.2, hguard.2⟩)

theorem reToken_good (s2 : String) : reToken s2 = "" ∨ goodKey (reToken s2) := by
  simp only [reToken]
  repeat' split
  all_goals
    first
    | (left; rfl)
    | (right
       rename_i hguard
       simp only [Bool.and_eq_true, decide_eq_true_eq] at hguard
       exact ⟨tokenMatch_all hguard.1, hguard.2⟩)

theorem extractToken_good (s : String) :
    extractToken s = "" ∨ goodKey (extractToken s) := by
  simp only [extractToken]
  split_ifs with h0 h1 h2 h3
  · left; rfl
  · right; exact good_of_guard h1
  · right
    simp only [Bool.and_eq_true] at h2
    exact good_of_guard (by simp [h2.1.2, h2.2])
  · rcases pqToken_good (trimPfxStr (trimPfxStr (match queryUnescape (strTrim s) with
      | some unq => if strTrim unq ≠ "" then strTrim unq else strTrim s
      | none => strTrim s) "?") "&") with h4 | h4
    · exact absurd h4 h3
    · right; exact h4
  · exact reToken_good _

theorem toEntry_good {it : RItem} {e : Entry} (h : toEntry it = some e) :
    e.key ≠ "" ∧ goodKey e.key := by
  simp only [toEntry] at h
  split_ifs at h with hk
  cases h
  refine ⟨hk, ?_⟩
  rcases extractToken_good (firstNonEmpty it.rkeyV it.keyV) with h0 | h0
  · exact absurd h0 hk
  · exact h0

theorem mem_shape1_good {raw : String} {e : Entry} (h : e ∈ shape1Entries raw) :
    e.key ≠ "" ∧ goodKey e.key := by
  simp only [shape1Entries] at h
  split at h
  · split at h
    · obtain ⟨it, _, ht⟩ := List.mem_filterMap.mp h
      exact toEntry_good ht
    · cases h
  · cases h

theorem mem_shape2_good {raw : String} {e : Entry} (h : e ∈ shape2Entries raw) :
    e.key ≠ "" ∧ goodKey e.key := by
  simp only [shape2Entries] at h
  split at h
  · split at h
    · obtain ⟨it, _, ht⟩ := List.mem_filterMap.mp h
      exact toEntry_good ht
    · cases h
  · cases h

theorem mem_shape3_good {raw : String} {e : Entry} (h : e ∈ shape3Entries raw) :
    e.key ≠ "" ∧ goodKey e.key := by
  simp only [shape3Entries] at h
  obtain ⟨m, _, hm⟩ := List.mem_filterMap.mp h
  split_ifs at hm with hk
  cases hm
  refine ⟨hk, ?_⟩
  rcases extractToken_good m with h0 | h0
  · exact absurd h0 hk
  · exact h0

theorem mem_parseEntries_good {raw : String} {e : Entry} (h : e ∈ parseEntries raw) :
    e.key ≠ "" ∧ goodKey e.key := by
  simp only [parseEntries] at h
  split_ifs at h
  · exact mem_shape1_good h
  · exact mem_shape2_good h
  · exact mem_shape3_good h

theorem mem_setType {l : List (Int × String)} {t : Int} {v : String}
    {p : Int × String} (h : p ∈ setType l t v) : p ∈ l ∨ p.2 = v := by
  induction l with
  | nil =>
    simp only [setType, List.mem_singleton] at h
    right
    rw [h]
  | cons q r ih =>
    simp only [setType] at h
    split_ifs at h
    · rcases List.mem_cons.mp h with h1 | h1
      · right; rw [h1]
      · left; exact List.mem_cons_of_mem _ h1
    · rcases List.mem_cons.mp h with h1 | h1
      · left; exact h1 ▸ List.mem_cons_self _ _
      · rcases ih h1 with h2 | h2
        · left; exact List.mem_cons_of_mem _ h2
        · right; exact h2

theorem setEntry_preserves_good {e : Entry} {c : Cache}
    (hg : e.key ≠ "" → goodKey e.key) (hc : CacheGood c) :
    CacheGood (setEntry e c).2.2 := by
  by_cases hk : e.key = ""
  · simpa [setEntry, hk] using hc
  · have hgk := hg hk
    simp only [setEntry, hk]
    split_ifs with h1 h2 h3 h4 h5
    all_goals
      constructor
      · intro p hp
        first
        | (rcases mem_setType hp with hm | hm
           · exact hc.1 p hm
           · rw [hm]; exact hgk)
        | exact hc.1 p hp
      · first
        | (right; exact hgk)
        | exact hc.2

theorem runEntriesAux_preserves_good (es : List Entry) :
    ∀ (f : String) (ch : Bool) (c : Cache),
      (∀ e ∈ es, e.key ≠ "" → goodKey e.key) → CacheGood c →
      CacheGood (runEntriesAux es f ch c).2.2 := by
  induction es with
  | nil => intro f ch c _ hc; exact hc
  | cons e es ih =>
    intro f ch c hes hc
    simp only [runEntriesAux]
    split_ifs with hk
    · exact ih f ch c (fun x hx => hes x (List.mem_cons_of_mem _ hx)) hc
    all_goals
      exact ih _ _ _ (fun x hx => hes x (List.mem_cons_of_mem _ hx))
        (setEntry_preserves_good (hes e (List.mem_cons_self _ _)) hc)

theorem updateFromRaw_preserves_good (raw : String) {c : Cache} (hc : CacheGood c) :
    CacheGood (UpdateFromRaw raw c).2.2 := by
  simp only [UpdateFromRaw]
  split_ifs with h1 h2 h3
  · exact hc
  · refine setEntry_preserves_good (fun _ => ?_) hc
    rcases extractToken_good (normRaw raw) with h0 | h0
    · exact absurd h0 h3
    · exact h0
  · exact hc
  · exact runEntriesAux_preserves_good _ _ _ _ (fun e he => fun _ => (mem_parseEntries_good he).2) hc

theorem reachable_good {c : Cache} (h : Reachable c) : CacheGood c := by
  induction h with
  | base => exact ⟨by simp [emptyCache], Or.inl rfl⟩
  | step raw _ ih => exact updateFromRaw_preserves_good raw ih

end rkey

/-- C10: every value ever stored by `UpdateFromRaw` into a class slot or the
fallback slot consists only of the characters `A-Z a-z 0-9 _ -`, has length at
least 8, and in particular is never empty. -/
theorem c10_stored_keys_wellformed (c : rkey.Cache) (h : rkey.Reachable c) :
    (∀ p ∈ c.byType, p.2 ≠ "" ∧ p.2.data.all isTokenChar = true ∧ 8 ≤ p.2.length)
    ∧ (c.fallback ≠ "" → c.fallback.data.all isTokenChar = true ∧ 8 ≤ c.fallback.length) := by
  obtain ⟨hb, hf⟩ := rkey.reachable_good h
  constructor
  · intro p hp
    have hg := hb p hp
    exact ⟨rkey.goodKey_ne_empty hg, hg.1, hg.2⟩
  · intro hne
    rcases hf with h0 | h0
    · exact absurd h0 hne
    · exact ⟨h0.1, h0.2⟩

/-- Witness for C10 on the cache reached by one concrete update. -/
theorem c10_stored_keys_wellformed_witness :
    (∀ p ∈ (rkey.UpdateFromRaw "rkey=AAAAAAAA" rkey.emptyCache).2.2.byType,
        p.2 ≠ "" ∧ p.2.data.all isTokenChar = true ∧ 8 ≤ p.2.length)
    ∧ ((rkey.UpdateFromRaw "rkey=AAAAAAAA" rkey.emptyCache).2.2.fallback ≠ "" →
        (rkey.UpdateFromRaw "rkey=AAAAAAAA" rkey.emptyCache).2.2.fallback.data.all isTokenChar = true
        ∧ 8 ≤ (rkey.UpdateFromRaw "rkey=AAAAAAAA" rkey.emptyCache).2.2.fallback.length) :=
  c10_stored_keys_wellformed _ (rkey.Reachable.step "rkey=AAAAAAAA" rkey.Reachable.base)

/-! ### The candidate list as first-seen de-duplication (towards C6) -/

namespace rkey

theorem foldl_pushVal_eq (xs : List String) :
    ∀ acc : List String,
      xs.foldl pushVal acc
        = acc ++ dedupFirst (xs.filter (fun v => decide (v ≠ "" ∧ v ∉ acc))) := by
  induction xs with
  | nil => intro acc; simp [dedupFirst]
  | cons x xs ih =>
    intro acc
    by_cases hx : x = "" ∨ x ∈ acc
    · have hpush : pushVal acc x = acc := by
        rcases hx with hx | hx <;> simp [pushVal, hx]
      have hpred : (fun v => decide (v ≠ "" ∧ v ∉ acc)) x = false := by
        rcases hx with hx | hx <;> simp [hx]
      simp only [List.foldl_cons, hpush, List.filter_cons, hpred]
      exact ih acc
    · push_neg at hx
      have hpush : pushVal acc x = acc ++ [x] := by
        simp [pushVal, hx.1, hx.2]
      have hpred : (fun v => decide (v ≠ "" ∧ v ∉ acc)) x = true := by
        simp [hx.1, hx.2]
      simp only [List.foldl_cons, hpush, List.filter_cons, hpred, if_true]
      rw [ih (acc ++ [x])]
      rw [dedupFirst]
      have hff :
          xs.filter (fun v => decide (v ≠ "" ∧ v ∉ acc ++ [x]))
            = (xs.filter (fun v => decide (v ≠ "" ∧ v ∉ acc))).filter
                (fun v => decide (v ≠ x)) := by
        rw [List.filter_filter]
        refine List.filter_congr ?_
        intro v _
        rw [Bool.eq_iff_iff]
        simp only [decide_eq_true_eq, Bool.and_eq_true, List.mem_append,
          List.mem_singleton, not_or]
        tauto
      rw [hff]
      simp

theorem candidatesByOrder_eq (order : List Int) (c : Cache) :
    candidatesByOrder order c
      = dedupFirst
          (((order.map (lookupType c)) ++ c.byType.map (fun p => p.2)
              ++ [c.fallback]).filter (fun v => v ≠ "")) := by
  simp only [candidatesByOrder]
  have h1 : order.foldl (fun a t => pushVal a (lookupType c t)) []
      = (order.map (lookupType c)).foldl pushVal [] := by
    rw [List.foldl_map]
  have h2 : ∀ acc, c.byType.foldl (fun a p => pushVal a p.2) acc
      = (c.byType.map (fun p => p.2)).foldl pushVal acc := by
    intro acc
    rw [List.foldl_map]
  have h3 : ∀ acc, pushVal acc c.fallback = [c.fallback].foldl pushVal acc := by
    intro acc
    rfl
  rw [h1, h2, h3, ← List.foldl_append, ← List.foldl_append]
  rw [foldl_pushVal_eq]
  simp only [List.nil_append, List.append_assoc]
  congr 1
  refine List.filter_congr ?_
  intro v _
  simp

end rkey

/-- C6: `Get` prefers the class-10 value, then the class-20 value, then the
fallback; `CandidatesForURL` puts class 20 before class 10 for URLs carrying
an offline/large-file marker and class 10 before class 20 otherwise, followed
by the remaining known class values and finally the fallback, de-duplicated
preserving first-seen order. -/
theorem c6_get_and_candidates_order (c : rkey.Cache) (url : String) :
    (rkey.lookupType c 10 ≠ "" → rkey.Get c = rkey.lookupType c 10)
    ∧ (rkey.lookupType c 10 = "" → rkey.lookupType c 20 ≠ "" →
        rkey.Get c = rkey.lookupType c 20)
    ∧ (rkey.lookupType c 10 = "" → rkey.lookupType c 20 = "" →
        rkey.Get c = c.fallback)
    ∧ (rkey.isOfflineURL url = true →
        rkey.CandidatesForURL url c
          = rkey.dedupFirst
              ((([20, 10].map (rkey.lookupType c)) ++ c.byType.map (fun p => p.2)
                  ++ [c.fallback]).filter (fun v => v ≠ "")))
    ∧ (rkey.isOfflineURL url = false →
        rkey.CandidatesForURL url c
          = rkey.dedupFirst
              ((([10, 20].map (rkey.lookupType c)) ++ c.byType.map (fun p => p.2)
                  ++ [c.fallback]).filter (fun v => v ≠ ""))) := by
  refine ⟨?_, ?_, ?_, ?_, ?_⟩
  · intro h; simp [rkey.Get, h]
  · intro h1 h2; simp [rkey.Get, h1, h2]
  · intro h1 h2; simp [rkey.Get, h1, h2]
  · intro h
    simp only [rkey.CandidatesForURL, h, if_true]
    exact rkey.candidatesByOrder_eq [20, 10] c
  · intro h
    simp only [rkey.CandidatesForURL, h, if_false, Bool.false_eq_true]
    exact rkey.candidatesByOrder_eq [10, 20] c

/-- Witness for C6 on a populated cache and an offline-marker URL. -/
theorem c6_get_and_candidates_order_witness :
    rkey.Get { byType := [(10, "AAAAAAAA"), (20, "BBBBBBBB"), (30, "CCCCCCCC")],
               fallback := "DDDDDDDD" } = "AAAAAAAA"
    ∧ rkey.CandidatesForURL "http://a.weiyun.com/f"
        { byType := [(10, "AAAAAAAA"), (20, "BBBBBBBB"), (30, "CCCCCCCC")],
          fallback := "DDDDDDDD" }
        = rkey.dedupFirst
            ((([20, 10].map (rkey.lookupType
                  { byType := [(10, "AAAAAAAA"), (20, "BBBBBBBB"), (30, "CCCCCCCC")],
                    fallback := "DDDDDDDD" }))
                ++ [(10, "AAAAAAAA"), (20, "BBBBBBBB"), (30, "CCCCCCCC")].map
                    (fun p => p.2)
                ++ ["DDDDDDDD"]).filter (fun v => v ≠ "")) :=
  ⟨(c6_get_and_candidates_order _ "http://a.weiyun.com/f").1 (by decide),
   (c6_get_and_candidates_order _ "http://a.weiyun.com/f").2.2.2.1 (by decide)⟩

/-! ### `UpdateFromRaw` as its effective entry list (towards C4 and C5) -/

namespace rkey

theorem setEntry_fst {e : Entry} (c : Cache) (hk : e.key ≠ "") :
    (setEntry e c).1 = e.key := by
  simp [setEntry, hk]

theorem updateFromRaw_eq_effEntries (raw : String) (c : Cache) :
    UpdateFromRaw raw c
      = if effEntries raw = [] then ("", false, c)
        else runEntries (effEntries raw) c := by
  simp only [UpdateFromRaw, effEntries]
  by_cases h0 : strTrim raw = ""
  · simp [h0]
  · simp only [h0, if_false]
    by_cases h1 : (parseEntries (normRaw raw)).isEmpty
    · by_cases h2 : extractToken (normRaw raw) = ""
      · simp [h1, h2]
      · simp only [h1, if_true, h2, ne_eq, not_false_iff]
        simp only [runEntries, runEntriesAux, h2]
        simp [setEntry_fst (e := { etype := 0, key := extractToken (normRaw raw) }) c h2]
    · have h3 : parseEntries (normRaw raw) ≠ [] := by
        intro hx
        rw [hx] at h1
        exact h1 rfl
      simp [h1, h3]

theorem effEntries_keys_ne {raw : String} {e : Entry} (h : e ∈ effEntries raw) :
    e.key ≠ "" := by
  simp only [effEntries] at h
  split_ifs at h with h0 h1 h2
  · cases h
  · rcases List.mem_singleton.mp h with rfl
    exact h2
  · cases h
  · exact (mem_parseEntries_good h).1

theorem find?_setType_self (l : List (Int × String)) (t : Int) (v : String) :
    (setType l t v).find? (fun p => p.1 = t) = some (t, v) := by
  induction l with
  | nil => simp [setType]
  | cons q r ih =>
    simp only [setType]
    split_ifs with hq
    · simp
    · simp only [List.find?_cons]
      split
      · rename_i heq
        exact absurd (of_decide_eq_true heq) hq
      · exact ih

theorem find?_setType_ne (l : List (Int × String)) (t : Int) (v : String)
    (t2 : Int) (h : t2 ≠ t) :
    (setType l t v).find? (fun p => p.1 = t2) = l.find? (fun p => p.1 = t2) := by
  have hne : ¬((t, v).1 = t2) := fun he => h (by simpa using he.symm)
  induction l with
  | nil => simp [setType, List.find?_cons, hne]
  | cons q r ih =>
    simp only [setType]
    split_ifs with hq
    · have hq2 : ¬(q.1 = t2) := by
        rw [hq]
        exact fun he => h he.symm
      simp [List.find?_cons, hne, hq2]
    · simp only [List.find?_cons]
      by_cases hq2 : q.1 = t2
      · simp [hq2]
      · simp [hq2, ih]

theorem setEntry_nochange {e : Entry} {c : Cache} (hk : e.key ≠ "")
    (h1 : e.etype ≠ 0 → lookupType c e.etype = e.key) (h2 : c.fallback = e.key) :
    setEntry e c = (e.key, false, c) := by
  by_cases ht : e.etype = 0
  · simp [setEntry, hk, ht, h2]
  · simp [setEntry, hk, ht, h1 ht, h2]

theorem setEntry_fallback {e : Entry} (c : Cache) (hk : e.key ≠ "") :
    (setEntry e c).2.2.fallback = e.key := by
  simp only [setEntry, hk]
  split_ifs <;> simp_all

theorem setEntry_byType (e : Entry) (c : Cache) :
    (setEntry e c).2.2.byType
      = if e.key ≠ "" ∧ e.etype ≠ 0 ∧ lookupType c e.etype ≠ e.key
        then setType c.byType e.etype e.key else c.byType := by
  simp only [setEntry]
  split_ifs <;> simp_all

theorem lookupType_setEntry_self {e : Entry} (c : Cache) (hk : e.key ≠ "")
    (ht : e.etype ≠ 0) : lookupType (setEntry e c).2.2 e.etype = e.key := by
  have hb := setEntry_byType e c
  by_cases ha : lookupType c e.etype = e.key
  · have hbt : (setEntry e c).2.2.byType = c.byType := by
      rw [hb, if_neg]
      intro hx
      exact hx.2.2 ha
    simp only [lookupType, hbt]
    exact ha
  · have hbt : (setEntry e c).2.2.byType = setType c.byType e.etype e.key := by
      rw [hb, if_pos ⟨hk, ht, ha⟩]
    simp [lookupType, hbt, find?_setType_self]

theorem lookupType_setEntry_preserve {e : Entry} {c : Cache} {t : Int}
    (h : lookupType c t = e.key) :
    lookupType (setEntry e c).2.2 t = e.key := by
  have hb := setEntry_byType e c
  by_cases hcond : e.key ≠ "" ∧ e.etype ≠ 0 ∧ lookupType c e.etype ≠ e.key
  · have hbt : (setEntry e c).2.2.byType = setType c.byType e.etype e.key := by
      rw [hb, if_pos hcond]
    by_cases hte : t = e.etype
    · subst hte
      simp [lookupType, hbt, find?_setType_self]
    · simp only [lookupType, hbt]
      rw [find?_setType_ne _ _ _ _ hte]
      exact h
  · have hbt : (setEntry e c).2.2.byType = c.byType := by
      rw [hb, if_neg hcond]
    simp only [lookupType, hbt]
    exact h

theorem runEntriesAux_preserve_lookup (es : List Entry) (k : String)
    (hk : ∀ e ∈ es, e.key = k) :
    ∀ (f : String) (ch : Bool) (c : Cache) (t : Int),
      lookupType c t = k → lookupType (runEntriesAux es f ch c).2.2 t = k := by
  induction es with
  | nil => intro f ch c t h; exact h
  | cons e es ih =>
    intro f ch c t h
    simp only [runEntriesAux]
    split_ifs with hke
    · exact ih (fun x hx => hk x (List.mem_cons_of_mem _ hx)) f ch c t h
    all_goals
      refine ih (fun x hx => hk x (List.mem_cons_of_mem _ hx)) _ _ _ t ?_
      have hek := hk e (List.mem_cons_self _ _)
      rw [← hek] at h ⊢
      exact lookupType_setEntry_preserve h

theorem runEntriesAux_preserve_fallback (es : List Entry) (k : String)
    (hk : ∀ e ∈ es, e.key = k) :
    ∀ (f : String) (ch : Bool) (c : Cache),
      c.fallback = k → (runEntriesAux es f ch c).2.2.fallback = k := by
  induction es with
  | nil => intro f ch c h; exact h
  | cons e es ih =>
    intro f ch c h
    simp only [runEntriesAux]
    split_ifs with hke
    · exact ih (fun x hx => hk x (List.mem_cons_of_mem _ hx)) f ch c h
    all_goals
      refine ih (fun x hx => hk x (List.mem_cons_of_mem _ hx)) _ _ _ ?_
      rw [setEntry_fallback c hke]
      exact hk e (List.mem_cons_self _ _)

theorem runEntriesAux_establish (es : List Entry) (k : String)
    (hk : ∀ e ∈ es, e.key = k) (hkne : k ≠ "") :
    ∀ (f : String) (ch : Bool) (c : Cache), es ≠ [] →
      (runEntriesAux es f ch c).2.2.fallback = k
      ∧ ∀ e ∈ es, e.etype ≠ 0 →
          lookupType (runEntriesAux es f ch c).2.2 e.etype = k := by
  induction es with
  | nil => intro f ch c h; exact absurd rfl h
  | cons e es ih =>
    intro f ch c _
    have hek : e.key = k := hk e (List.mem_cons_self _ _)
    have hkne2 : e.key ≠ "" := hek ▸ hkne
    have hktl : ∀ x ∈ es, x.key = k := fun x hx => hk x (List.mem_cons_of_mem _ hx)
    simp only [runEntriesAux, hkne2, if_false]
    cases es with
    | nil =>
      constructor
      · simp only [runEntriesAux]
        rw [setEntry_fallback c hkne2]
        exact hek
      · intro x hx ht
        rcases List.mem_singleton.mp hx with rfl
        simp only [runEntriesAux]
        rw [← hek]
        exact hek ▸ lookupType_setEntry_self c hkne2 ht
    | cons e2 es2 =>
      have hne2 : (e2 :: es2) ≠ [] := by simp
      obtain ⟨hf, hl⟩ := ih hktl (if f = "" then e.key else f)
        (ch || (setEntry e c).2.1) (setEntry e c).2.2 hne2
      refine ⟨hf, ?_⟩
      intro x hx ht
      rcases List.mem_cons.mp hx with rfl | hx2
      · refine runEntriesAux_preserve_lookup _ k hktl _ _ _ _ ?_
        rw [← hek]
        exact lookupType_setEntry_self c hkne2 ht
      · exact hl x hx2 ht

theorem runEntriesAux_nochange (es : List Entry) (c : Cache)
    (h : ∀ e ∈ es, e.key ≠ "" →
        (e.etype ≠ 0 → lookupType c e.etype = e.key) ∧ c.fallback = e.key) :
    ∀ (f : String) (ch : Bool),
      (runEntriesAux es f ch c).2.1 = ch ∧ (runEntriesAux es f ch c).2.2 = c := by
  induction es with
  | nil => intro f ch; exact ⟨rfl, rfl⟩
  | cons e es ih =>
    intro f ch
    simp only [runEntriesAux]
    split_ifs with hke
    · exact ih (fun x hx => h x (List.mem_cons_of_mem _ hx)) f ch
    all_goals
      have he := h e (List.mem_cons_self _ _) hke
      rw [setEntry_nochange hke he.1 he.2]
      simpa using ih (fun x hx => h x (List.mem_cons_of_mem _ hx)) _ _

end rkey

/-- C4 fails as stated: feeding the same two-entry payload twice does not
yield `changed = false` on the second call — the two distinct keys make the
fallback slot flip back on every call. -/
theorem c4_counterexample :
    (rkey.UpdateFromRaw
        "[\x7b\"type\":\"private\",\"rkey\":\"AAAAAAAA\"\x7d,\x7b\"type\":\"group\",\"rkey\":\"BBBBBBBB\"\x7d]"
        ((rkey.UpdateFromRaw
            "[\x7b\"type\":\"private\",\"rkey\":\"AAAAAAAA\"\x7d,\x7b\"type\":\"group\",\"rkey\":\"BBBBBBBB\"\x7d]"
            rkey.emptyCache).2.2)).2.1 = true := by
  decide

/-- C4 amended: `UpdateFromRaw` is idempotent for payloads whose extracted
entries all carry one and the same key (in particular every single-entry
payload and every direct-token payload): an immediate second call with the
same payload returns `changed = false`. -/
theorem c4_amended_idempotent_single_key (raw : String) (c : rkey.Cache)
    (h : ∀ e1 ∈ rkey.effEntries raw, ∀ e2 ∈ rkey.effEntries raw, e1.key = e2.key) :
    (rkey.UpdateFromRaw raw ((rkey.UpdateFromRaw raw c).2.2)).2.1 = false := by
  have heq2 := rkey.updateFromRaw_eq_effEntries raw ((rkey.UpdateFromRaw raw c).2.2)
  cases hes : rkey.effEntries raw with
  | nil => rw [heq2, hes]; simp
  | cons e es =>
    have hmem : e ∈ rkey.effEntries raw := by rw [hes]; exact List.mem_cons_self _ _
    have hk : ∀ x ∈ rkey.effEntries raw, x.key = e.key := fun x hx => h x hx e hmem
    have hkne : e.key ≠ "" := rkey.effEntries_keys_ne hmem
    have hk2 : ∀ x ∈ (e :: es), x.key = e.key := by rw [← hes]; exact hk
    have hs1 : (rkey.UpdateFromRaw raw c).2.2
        = (rkey.runEntriesAux (e :: es) "" false c).2.2 := by
      rw [rkey.updateFromRaw_eq_effEntries raw c, hes]
      simp [rkey.runEntries]
    obtain ⟨hf, hl⟩ := rkey.runEntriesAux_establish (e :: es) e.key hk2 hkne
      "" false c (by simp)
    rw [heq2, hes]
    rw [if_neg (by simp : ¬(e :: es) = [])]
    refine (rkey.runEntriesAux_nochange (e :: es) _ ?_ "" false).1
    intro x hx _
    have hxk : x.key = e.key := hk2 x hx
    constructor
    · intro ht
      rw [hxk, hs1]
      exact hl x hx ht
    · rw [hxk, hs1]
      exact hf

/-- Witness for the amended C4 on a single-entry payload. -/
theorem c4_amended_idempotent_single_key_witness :
    (rkey.UpdateFromRaw "[\x7b\"type\":\"private\",\"rkey\":\"AAAAAAAA\"\x7d]"
        ((rkey.UpdateFromRaw "[\x7b\"type\":\"private\",\"rkey\":\"AAAAAAAA\"\x7d]"
            rkey.emptyCache).2.2)).2.1 = false :=
  c4_amended_idempotent_single_key
    "[\x7b\"type\":\"private\",\"rkey\":\"AAAAAAAA\"\x7d]" rkey.emptyCache (by decide)

/-- C5 fails as stated: this input both carries an extractable `rkey=` query
parameter (the claimed highest-priority direct-token shape, yielding
`BBBBBBBB`) and parses as the flat JSON array shape (yielding `AAAAAAAA`);
`UpdateFromRaw` returns the JSON-shape key, so the JSON shapes — not the
direct token — have priority. -/
theorem c5_counterexample :
    rkey.extractToken "[\x7b\"rkey\":\"AAAAAAAA\",\"u\":\"http://x?rkey=BBBBBBBB\"\x7d]"
        = "BBBBBBBB"
    ∧ (rkey.UpdateFromRaw "[\x7b\"rkey\":\"AAAAAAAA\",\"u\":\"http://x?rkey=BBBBBBBB\"\x7d]"
          rkey.emptyCache).1 = "AAAAAAAA"
    ∧ (rkey.UpdateFromRaw "[\x7b\"rkey\":\"AAAAAAAA\",\"u\":\"http://x?rkey=BBBBBBBB\"\x7d]"
          rkey.emptyCache).2.2 = { byType := [], fallback := "AAAAAAAA" }
    ∧ ("AAAAAAAA" : String) ≠ "BBBBBBBB" := by
  refine ⟨by decide, by decide, by decide, by decide⟩

/-- C5 amended: extraction is attempted in the order flat JSON array, then
`data`-wrapped array, then the generic quoted `rkey`/`key` field scan, and
only when all three yield nothing the direct bare-token / `rkey=` query
extraction, which stores one unclassified entry; the first shape yielding at
least one entry wins, so an input that is both a parseable direct token and a
parseable JSON shape is treated per the JSON shape. -/
theorem c5_amended_extraction_order (raw : String) (c : rkey.Cache) :
    (rkey.shape1Entries (rkey.normRaw raw) ≠ [] →
        rkey.parseEntries (rkey.normRaw raw) = rkey.shape1Entries (rkey.normRaw raw))
    ∧ (rkey.shape1Entries (rkey.normRaw raw) = [] →
        rkey.shape2Entries (rkey.normRaw raw) ≠ [] →
        rkey.parseEntries (rkey.normRaw raw) = rkey.shape2Entries (rkey.normRaw raw))
    ∧ (rkey.shape1Entries (rkey.normRaw raw) = [] →
        rkey.shape2Entries (rkey.normRaw raw) = [] →
        rkey.parseEntries (rkey.normRaw raw) = rkey.shape3Entries (rkey.normRaw raw))
    ∧ (strTrim raw ≠ "" → rkey.parseEntries (rkey.normRaw raw) ≠ [] →
        rkey.UpdateFromRaw raw c
          = rkey.runEntries (rkey.parseEntries (rkey.normRaw raw)) c)
    ∧ (strTrim raw ≠ "" → rkey.parseEntries (rkey.normRaw raw) = [] →
        rkey.extractToken (rkey.normRaw raw) ≠ "" →
        rkey.UpdateFromRaw raw c
          = rkey.runEntries
              [{ etype := 0, key := rkey.extractToken (rkey.normRaw raw) }] c)
    ∧ (strTrim raw ≠ "" → rkey.parseEntries (rkey.normRaw raw) = [] →
        rkey.extractToken (rkey.normRaw raw) = "" →
        rkey.UpdateFromRaw raw c = ("", false, c)) := by
  refine ⟨?_, ?_, ?_, ?_, ?_, ?_⟩
  · intro h1
    simp [rkey.parseEntries, h1]
  · intro h1 h2
    simp [rkey.parseEntries, h1, h2]
  · intro h1 h2
    simp [rkey.parseEntries, h1, h2]
  · intro h0 h1
    rw [rkey.updateFromRaw_eq_effEntries raw c]
    have he : rkey.effEntries raw = rkey.parseEntries (rkey.normRaw raw) := by
      simp only [rkey.effEntries, h0, if_false]
      have : (rkey.parseEntries (rkey.normRaw raw)).isEmpty = false := by
        simpa [List.isEmpty_iff] using h1
      simp [this]
    rw [he, if_neg h1]
  · intro h0 h1 h2
    rw [rkey.updateFromRaw_eq_effEntries raw c]
    have he : rkey.effEntries raw
        = [{ etype := 0, key := rkey.extractToken (rkey.normRaw raw) }] := by
      simp only [rkey.effEntries, h0, if_false]
      simp [h1, h2]
    rw [he, if_neg (by simp)]
  · intro h0 h1 h2
    rw [rkey.updateFromRaw_eq_effEntries raw c]
    have he : rkey.effEntries raw = [] := by
      simp only [rkey.effEntries, h0, if_false]
      simp [h1, h2]
    rw [he, if_pos rfl]

/-- Witness for the amended C5 on a flat-array input. -/
theorem c5_amended_extraction_order_witness :
    rkey.parseEntries
        (rkey.normRaw "[\x7b\"type\":\"private\",\"rkey\":\"AAAAAAAA\"\x7d]")
      = rkey.shape1Entries
          (rkey.normRaw "[\x7b\"type\":\"private\",\"rkey\":\"AAAAAAAA\"\x7d]")
    ∧ rkey.UpdateFromRaw "[\x7b\"type\":\"private\",\"rkey\":\"AAAAAAAA\"\x7d]"
          rkey.emptyCache
        = rkey.runEntries
            (rkey.parseEntries
              (rkey.normRaw "[\x7b\"type\":\"private\",\"rkey\":\"AAAAAAAA\"\x7d]"))
            rkey.emptyCache :=
  ⟨(c5_amended_extraction_order
      "[\x7b\"type\":\"private\",\"rkey\":\"AAAAAAAA\"\x7d]" rkey.emptyCache).1
      (by decide),
   (c5_amended_extraction_order
      "[\x7b\"type\":\"private\",\"rkey\":\"AAAAAAAA\"\x7d]" rkey.emptyCache).2.2.2.1
      (by decide) (by decide)⟩

/-! ### Worker lemmas (towards C1 and C2) -/

theorem str_append_ne_empty (a b : String) (h : a ≠ "") : a ++ b ≠ "" := by
  intro he
  apply h
  apply String.ext
  have hd := congrArg String.data he
  rw [String.data_append] at hd
  have hz : a.data ++ b.data = [] := by simpa using hd
  simpa using (List.append_eq_nil.mp hz).1

namespace task

theorem publish_save_mem {env : PubEnv} {sa : Bool} {p q : Post}
    (h : WEvent.save q ∈ (publish env sa p).2.1) :
    q.tid ≠ "" ∧ q.status = .published := by
  simp only [publish] at h
  cases ho : env.outcome with
  | err m => simp [ho] at h
  | resp ok code msg fields =>
    simp only [ho] at h
    by_cases hok : ok
    · simp only [hok, Bool.not_true, Bool.false_eq_true, if_false] at h
      simp only [List.mem_cons, List.mem_singleton] at h
      rcases h with h | h | h
      · cases h
      · cases h
        constructor
        · show (if getStringF fields "tid" ≠ "" then getStringF fields "tid"
              else if getStringF fields "t1_tid" ≠ "" then getStringF fields "t1_tid"
              else "published_" ++ toString env.now) ≠ ""
          split_ifs with h1 h2
          · exact h1
          · exact h2
          · exact str_append_ne_empty "published_" _ (by decide)
        · rfl
      · cases h
    · simp [hok] at h

theorem runLoop_save_mem (envs : Nat → PubEnv) (sa : Bool) (d : Nat) (p : Post) :
    ∀ (rem i : Nat) (le : Option String) (q : Post),
      WEvent.save q ∈ (runLoop envs sa d p i rem le).1 →
      q.tid ≠ "" ∧ q.status = .published := by
  intro rem
  induction rem with
  | zero => intro i le q h; simp [runLoop] at h
  | succ rem ih =>
    intro i le q h
    simp only [runLoop] at h
    split at h
    · rename_i hres
      simp only [List.append_assoc, List.mem_append] at h
      rcases h with h | h | h
      · split at h <;> simp_all
      · simp at h
      · exact publish_save_mem h
    · rename_i e hres
      simp only [List.append_assoc, List.mem_append] at h
      rcases h with h | h | h | h
      · split at h <;> simp_all
      · simp at h
      · exact publish_save_mem h
      · exact ih (i + 1) (some e) q h

end task

/-- C1: every submission state the worker persists satisfies the invariant
`tid` non-empty ⇔ status `published`: the success path writes a non-empty
`tid` together with status `published` in the one `SavePost` of `publish`,
the exhausted-retries path writes `failed` without touching the (empty)
`tid`, and no persisted state is ever still `approved`. -/
theorem c1_saved_posts_invariant (cfg : task.WorkerConfig) (sa : Bool)
    (envs : Nat → task.PubEnv) (p : task.Post)
    (hst : p.status = .approved) (htid : p.tid = "") :
    ∀ q : task.Post, task.WEvent.save q ∈ task.pollAndPublish cfg sa envs p →
      (q.tid ≠ "" ↔ q.status = .published) ∧ q.status ≠ .approved := by
  intro q hq
  simp only [task.pollAndPublish] at hq
  split at hq
  · have h2 := task.runLoop_save_mem envs sa cfg.retryDelay p _ _ _ q hq
    refine ⟨⟨fun _ => h2.2, fun _ => h2.1⟩, ?_⟩
    rw [h2.2]
    simp
  · simp only [List.mem_append, List.mem_singleton] at hq
    rcases hq with hq | hq
    · have h2 := task.runLoop_save_mem envs sa cfg.retryDelay p _ _ _ q hq
      refine ⟨⟨fun _ => h2.2, fun _ => h2.1⟩, ?_⟩
      rw [h2.2]
      simp
    · cases hq
      constructor
      · constructor
        · intro hne0
          exact absurd htid hne0
        · intro hpub
          cases hpub
      · simp

/-- Witness for C1: with a single always-failing attempt the trace ends in
the `failed` persist, which satisfies the invariant. -/
theorem c1_saved_posts_invariant_witness :
    (({ id := 1, status := .failed, reason := "发布失败: publish: boom" } : task.Post).tid ≠ ""
        ↔ ({ id := 1, status := .failed, reason := "发布失败: publish: boom" } : task.Post).status
            = .published)
    ∧ ({ id := 1, status := .failed, reason := "发布失败: publish: boom" } : task.Post).status
        ≠ .approved :=
  c1_saved_posts_invariant { retryCount := 0 } false
    (fun _ => { outcome := .err "boom" }) { id := 1, status := .approved }
    rfl rfl
    { id := 1, status := .failed, reason := "发布失败: publish: boom" }
    (by decide)

/-! ### The exact all-fail trace (towards C2) -/

theorem flatMap_range_succ_shift {α : Type} (g : Nat → List α) (n i : Nat) :
    (List.range (n + 1)).flatMap (fun k => g (i + k))
      = g i ++ (List.range n).flatMap (fun k => g (i + 1 + k)) := by
  rw [List.range_succ_eq_map, List.flatMap_cons, List.flatMap_map]
  refine congrArg₂ (· ++ ·) rfl ?_
  refine congrArg _ ?_
  funext k
  congr 1
  omega

namespace task

theorem publish_no_attempt (env : PubEnv) (sa : Bool) (p : Post) :
    (publish env sa p).2.1.countP isAttemptEv = 0 := by
  simp only [publish]
  cases env.outcome with
  | err m => simp [isAttemptEv]
  | resp ok code msg fields =>
    by_cases hok : ok <;> simp [hok, isAttemptEv]

theorem runLoop_allfail (envs : Nat → PubEnv) (sa : Bool) (d : Nat) (p : Post)
    (em : Nat → String) :
    ∀ (rem i : Nat) (le : Option String),
      (∀ j, i ≤ j → j < i + (rem + 1) → (publish (envs j) sa p).2.2 = some (em j)) →
      runLoop envs sa d p i (rem + 1) le
        = ((List.range (rem + 1)).flatMap (fun k =>
            (if 0 < i + k then [WEvent.sleep d] else [])
              ++ [WEvent.attempt (i + k)] ++ (publish (envs (i + k)) sa p).2.1),
           some (em (i + rem))) := by
  intro rem
  induction rem with
  | zero =>
    intro i le h
    have hi := h i (Nat.le_refl i) (by omega)
    simp only [runLoop, hi]
    simp [List.range_succ, List.append_assoc]
  | succ rem ih =>
    intro i le h
    have hi := h i (Nat.le_refl i) (by omega)
    have htl := ih (i + 1) (some (em i)) (fun j h1 h2 => h j (by omega) (by omega))
    conv_lhs => rw [runLoop]
    simp only [hi, htl]
    conv_rhs =>
      rw [flatMap_range_succ_shift
        (fun m => (if 0 < m then [WEvent.sleep d] else [])
          ++ [WEvent.attempt m] ++ (publish (envs m) sa p).2.1) (rem + 1) i]
    refine congrArg₂ Prod.mk ?_ ?_
    · simp [List.append_assoc]
    · have harith : i + 1 + rem = i + (rem + 1) := by omega
      rw [harith]

end task

/-- C2: when every publish attempt fails, the worker makes exactly
`retryCount + 1` attempts, sleeping `retryDelay` immediately before every
attempt except the first, and then persists exactly one `failed` state whose
reason contains the last error's message. -/
theorem c2_allfail_trace (cfg : task.WorkerConfig) (sa : Bool)
    (envs : Nat → task.PubEnv) (p : task.Post) (em : Nat → String)
    (he : ∀ j, j ≤ cfg.retryCount → (task.publish (envs j) sa p).2.2 = some (em j)) :
    task.pollAndPublish cfg sa envs p
      = ((List.range (cfg.retryCount + 1)).flatMap (fun k =>
          (if 0 < k then [task.WEvent.sleep cfg.retryDelay] else [])
            ++ [task.WEvent.attempt k] ++ (task.publish (envs k) sa p).2.1))
        ++ [task.WEvent.save
              { p with status := .failed,
                       reason := "发布失败: " ++ em cfg.retryCount }]
    ∧ (task.pollAndPublish cfg sa envs p).countP task.isAttemptEv
        = cfg.retryCount + 1
    ∧ ∃ pre suf,
        ({ p with status := .failed,
                  reason := "发布失败: " ++ em cfg.retryCount } : task.Post).reason
          = pre ++ em cfg.retryCount ++ suf := by
  have hl := task.runLoop_allfail envs sa cfg.retryDelay p em cfg.retryCount 0 none
    (fun j h1 h2 => he j (by omega))
  have htr : task.pollAndPublish cfg sa envs p
      = ((List.range (cfg.retryCount + 1)).flatMap (fun k =>
          (if 0 < k then [task.WEvent.sleep cfg.retryDelay] else [])
            ++ [task.WEvent.attempt k] ++ (task.publish (envs k) sa p).2.1))
        ++ [task.WEvent.save
              { p with status := .failed,
                       reason := "发布失败: " ++ em cfg.retryCount }] := by
    simp only [task.pollAndPublish, hl]
    simp
  refine ⟨htr, ?_, "发布失败: ", "", by simp⟩
  rw [htr]
  rw [List.countP_append]
  have h2 : ∀ l : List Nat,
      (l.flatMap (fun k =>
        (if 0 < k then [task.WEvent.sleep cfg.retryDelay] else [])
          ++ [task.WEvent.attempt k]
          ++ (task.publish (envs k) sa p).2.1)).countP task.isAttemptEv
        = l.length := by
    intro l
    induction l with
    | nil => simp
    | cons x xs ihx =>
      rw [List.flatMap_cons, List.countP_append, ihx]
      rw [List.countP_append, List.countP_append]
      rw [task.publish_no_attempt]
      have hsl : (if 0 < x then [task.WEvent.sleep cfg.retryDelay]
          else []).countP task.isAttemptEv = 0 := by
        split_ifs <;> simp [task.isAttemptEv]
      rw [hsl]
      simp [task.isAttemptEv]
      omega
  rw [h2]
  simp [task.isAttemptEv, List.length_range]

/-- Witness for C2: retry count 2 and an always-erroring publish give exactly
three attempts and the `failed` persist with the wrapped error text. -/
theorem c2_allfail_trace_witness :
    task.pollAndPublish { retryCount := 2, retryDelay := 5 } false
        (fun _ => { outcome := .err "boom" }) { id := 1, status := .approved }
      = ((List.range 3).flatMap (fun k =>
          (if 0 < k then [task.WEvent.sleep 5] else [])
            ++ [task.WEvent.attempt k]
            ++ (task.publish { outcome := .err "boom" } false
                  { id := 1, status := .approved }).2.1))
        ++ [task.WEvent.save
              { id := 1, status := .failed,
                reason := "发布失败: publish: boom" }]
    ∧ (task.pollAndPublish { retryCount := 2, retryDelay := 5 } false
        (fun _ => { outcome := .err "boom" })
        { id := 1, status := .approved }).countP task.isAttemptEv = 3
    ∧ ∃ pre suf,
        ({ id := 1, status := .failed,
           reason := "发布失败: publish: boom" } : task.Post).reason
          = pre ++ "publish: boom" ++ suf :=
  c2_allfail_trace { retryCount := 2, retryDelay := 5 } false
    (fun _ => { outcome := .err "boom" }) { id := 1, status := .approved }
    (fun _ => "publish: boom") (fun j _ => rfl)

/-! ### Rate-limiter lemmas (towards C3) -/

namespace task

theorem find?_setPC (pcs : List (Nat × WPhase)) (w : Nat) (x : WPhase) :
    (setPC pcs w x).find? (fun q => q.1 = w) = some (w, x) := by
  simp only [setPC]
  have hnone : (pcs.filter (fun q => q.1 ≠ w)).find? (fun q => q.1 = w) = none := by
    rw [List.find?_eq_none]
    intro q hq
    have := (List.mem_filter.mp hq).2
    simpa using this
  rw [List.find?_append, hnone]
  simp

theorem find?_delPC (pcs : List (Nat × WPhase)) (w : Nat) :
    (delPC pcs w).find? (fun q => q.1 = w) = none := by
  simp only [delPC]
  rw [List.find?_eq_none]
  intro q hq
  have := (List.mem_filter.mp hq).2
  simpa using this

theorem rl_single (I : Nat) (w : Nat) :
    ∀ (tr : List RLEvent), (∀ e ∈ tr, widOf e = w) →
    ∀ (st : RLState) (res : RLState × List Nat),
      (∀ t0, phaseOf st w = some (.started t0) → t0 ≤ st.now) →
      rlRun I tr st = some res →
      List.Chain' (fun a b => a + I ≤ b) res.2
      ∧ ∀ x ∈ res.2, rlBound I w st ≤ x := by
  intro tr
  induction tr with
  | nil =>
    intro _ st res _ h
    simp only [rlRun] at h
    cases h
    exact ⟨List.chain'_nil, by simp⟩
  | cons e tr ih =>
    intro hw st res hwf h
    simp only [rlRun] at h
    cases hstep : rlStep I st e with
    | none => simp [hstep] at h
    | some st2e =>
      obtain ⟨st2, emit⟩ := st2e
      cases hrest : rlRun I tr st2 with
      | none => simp [hstep, hrest] at h
      | some st3outs =>
        obtain ⟨st3, outs⟩ := st3outs
        simp only [hstep, hrest] at h
        cases h
        have hwtl : ∀ x ∈ tr, widOf x = w := fun x hx => hw x (List.mem_cons_of_mem _ hx)
        have hew : widOf e = w := hw e (List.mem_cons_self _ _)
        cases e with
        | read w2 v t =>
          simp only [widOf] at hew
          subst hew
          simp only [rlStep] at hstep
          split_ifs at hstep with hcond
          · obtain ⟨hnow, hph, hv⟩ := hcond
            cases hstep
            obtain ⟨hchain, hbound⟩ := ih hwtl _ (st3, outs)
              (by intro t0 hx; simp [phaseOf, find?_setPC] at hx) hrest
            refine ⟨by simpa using hchain, ?_⟩
            intro x hx
            simp only [List.nil_append] at hx
            have hb := hbound x hx
            simp only [rlBound, phaseOf, find?_setPC] at hb
            simp only [rlBound, hph]
            rw [← hv]
            simpa using hb
        | start w2 t =>
          simp only [widOf] at hew
          subst hew
          simp only [rlStep] at hstep
          cases hphase : phaseOf st w2 with
          | none => simp [hphase] at hstep
          | some ph =>
            cases ph with
            | started t0 => simp [hphase] at hstep
            | waited v =>
              simp only [hphase] at hstep
              split_ifs at hstep with hcond
              · obtain ⟨hnow, hlb⟩ := hcond
                cases hstep
                obtain ⟨hchain, hbound⟩ := ih hwtl _ (st3, outs)
                  (by intro t0 hx
                      simp [phaseOf, find?_setPC] at hx
                      dsimp only
                      omega) hrest
                refine ⟨by simpa using hchain, ?_⟩
                intro x hx
                simp only [List.nil_append] at hx
                have hb := hbound x hx
                simp only [rlBound, phaseOf, find?_setPC] at hb
                simp only [rlBound, hphase]
                exact Nat.le_trans hlb (by simpa using hb)
        | success w2 t =>
          simp only [widOf] at hew
          subst hew
          simp only [rlStep] at hstep
          cases hphase : phaseOf st w2 with
          | none => simp [hphase] at hstep
          | some ph =>
            cases ph with
            | waited v => simp [hphase] at hstep
            | started t0 =>
              simp only [hphase] at hstep
              split_ifs at hstep with hcond
              · cases hstep
                have ht0 : t0 ≤ st.now := hwf t0 hphase
                obtain ⟨hchain, hbound⟩ := ih hwtl _ (st3, outs)
                  (by intro t1 hx; simp [phaseOf, find?_delPC] at hx) hrest
                have hboundI : ∀ x ∈ outs, t + I ≤ x := by
                  intro x hx
                  have hb := hbound x hx
                  simp only [rlBound, phaseOf, find?_delPC] at hb
                  simpa using hb
                constructor
                · cases outs with
                  | nil => simp
                  | cons y ys =>
                    refine List.Chain'.cons ?_ (by simpa using hchain)
                    have hy := hboundI y (List.mem_cons_self _ _)
                    omega
                · intro x hx
                  simp only [rlBound, hphase]
                  rcases List.mem_cons.mp hx with rfl | hx2
                  · exact Nat.le_refl x
                  · have := hboundI x hx2
                    omega

end task

/-- C3 fails as stated: a valid interleaving of three workers under
rate-limit interval 10 in which two successful publish calls both start at
time 11 — each worker separately waited for the shared timestamp it read, but
the check-then-publish section is not atomic, so the pool-wide spacing does
not hold. -/
theorem c3_counterexample :
    task.rlRun 10
        [.read 0 none 0, .start 0 0, .success 0 1,
         .read 1 (some 1) 1, .read 2 (some 1) 1,
         .start 1 11, .start 2 11, .success 1 11, .success 2 12]
        task.rlInit
      = some ({ now := 12, last := some 12, pcs := [] }, [0, 11, 11])
    ∧ ¬ List.Pairwise (fun a b => a + 10 ≤ b) [0, 11, 11] := by
  constructor
  · decide
  · decide

/-- C3 amended: the rate-limiter guarantee holds for the publishes of one
worker — in any valid trace all of whose events belong to a single worker,
the successful publish calls' start times are pairwise at least the
configured interval apart.  With several workers the wait and the publish are
not atomic, and two workers that read the same timestamp may publish closer
together (see the counterexample). -/
theorem c3_amended_single_worker_spacing (I : Nat) (w : Nat)
    (tr : List task.RLEvent) (res : task.RLState × List Nat)
    (hw : ∀ e ∈ tr, task.widOf e = w)
    (h : task.rlRun I tr task.rlInit = some res) :
    List.Pairwise (fun a b => a + I ≤ b) res.2 := by
  have hwf : ∀ t0, task.phaseOf task.rlInit w = some (.started t0) →
      t0 ≤ task.rlInit.now := by
    intro t0 hx
    simp [task.phaseOf, task.rlInit] at hx
  have hchain := (task.rl_single I w tr hw task.rlInit res hwf h).1
  haveI : IsTrans Nat (fun a b => a + I ≤ b) := ⟨fun a b c h1 h2 => by omega⟩
  exact List.chain'_iff_pairwise.mp hchain

/-- Witness for the amended C3: one worker, two spaced successful publishes. -/
theorem c3_amended_single_worker_spacing_witness :
    List.Pairwise (fun a b => a + 10 ≤ b) [0, 15] :=
  c3_amended_single_worker_spacing 10 0
    [.read 0 none 0, .start 0 0, .success 0 5,
     .read 0 (some 5) 6, .start 0 15, .success 0 16]
    ({ now := 16, last := some 16, pcs := [] }, [0, 15])
    (by decide) (by decide)

/-! ### Keep-alive recovery lemmas (towards C7) -/

namespace task

theorem persistedOf_append (a b : List KAEvent) :
    persistedOf (a ++ b) = persistedOf a ++ persistedOf b := by
  simp [persistedOf]

theorem notifyCount_append (a b : List KAEvent) :
    notifyCount (a ++ b) = notifyCount a + notifyCount b := by
  simp [notifyCount, List.countP_append]

theorem notifyAdmin_persistedOf (mg : Int) (bots : List BotSession) (text : String) :
    persistedOf (notifyAdmin mg bots text) = [] := by
  simp only [notifyAdmin]
  split_ifs
  · rfl
  · cases bots <;> simp [persistedOf]

theorem notifyAdmin_count (mg : Int) (bots : List BotSession) (text : String)
    (hmg : 0 < mg) (hb : bots ≠ []) :
    notifyCount (notifyAdmin mg bots text) = 1 := by
  simp only [notifyAdmin]
  rw [if_neg (by omega)]
  cases bots with
  | nil => exact absurd rfl hb
  | cons b bs => simp [notifyCount]

theorem tryRefresh_spec (qz : QzoneConfig) (hfile : qz.cookieFile ≠ "") :
    ∀ bots : List BotSession,
      (∀ b, bots.find? (fun s => s.cookie ≠ "" && s.updateOk) = some b →
        (tryRefreshFromBot qz bots).1 = true
        ∧ persistedOf (tryRefreshFromBot qz bots).2 = [b.cookie]
        ∧ notifyCount (tryRefreshFromBot qz bots).2 = 0)
      ∧ (bots.find? (fun s => s.cookie ≠ "" && s.updateOk) = none →
        (tryRefreshFromBot qz bots).1 = false
        ∧ persistedOf (tryRefreshFromBot qz bots).2 = []
        ∧ notifyCount (tryRefreshFromBot qz bots).2 = 0) := by
  intro bots
  induction bots with
  | nil =>
    constructor
    · intro b hb
      simp at hb
    · intro _
      simp [tryRefreshFromBot, persistedOf, notifyCount]
  | cons b bs ih =>
    by_cases hc : b.cookie = ""
    · have hpred : (fun s => s.cookie ≠ "" && s.updateOk) b = false := by simp [hc]
      constructor
      · intro b2 hb2
        simp only [List.find?_cons, hpred] at hb2
        simp only [tryRefreshFromBot, hc, if_true]
        exact ih.1 b2 hb2
      · intro hn
        simp only [List.find?_cons, hpred] at hn
        simp only [tryRefreshFromBot, hc, if_true]
        exact ih.2 hn
    · by_cases hu : b.updateOk
      · have hpred : (fun s => s.cookie ≠ "" && s.updateOk) b = true := by
          simp [hc, hu]
        constructor
        · intro b2 hb2
          simp only [List.find?_cons, hpred] at hb2
          cases hb2
          simp [tryRefreshFromBot, hc, hu, SaveCookie, hfile, persistedOf, notifyCount]
        · intro hn
          simp only [List.find?_cons, hpred] at hn
          cases hn
      · have hpred : (fun s => s.cookie ≠ "" && s.updateOk) b = false := by
          simp [hu]
        have hstep : tryRefreshFromBot qz (b :: bs)
            = ((tryRefreshFromBot qz bs).1,
               .updateCookie b.cookie false :: (tryRefreshFromBot qz bs).2) := by
          simp [tryRefreshFromBot, hc, hu]
        constructor
        · intro b2 hb2
          simp only [List.find?_cons, hpred] at hb2
          have := ih.1 b2 hb2
          rw [hstep]
          refine ⟨this.1, ?_, ?_⟩
          · simpa [persistedOf] using this.2.1
          · simpa [notifyCount] using this.2.2
        · intro hn
          simp only [List.find?_cons, hpred] at hn
          have := ih.2 hn
          rw [hstep]
          refine ⟨this.1, ?_, ?_⟩
          · simpa [persistedOf] using this.2.1
          · simpa [notifyCount] using this.2.2

end task

/-- C7 fails as stated: the first non-empty session credential does not
always win — a non-empty credential the client rejects (`UpdateCookie`
error) is skipped, and a later session's credential is the one persisted. -/
theorem c7_counterexample :
    task.check false { cookieFile := "cookie.txt" } { manageGroup := 123 }
        [{ cookie := "AAACOOKIE1", updateOk := false },
         { cookie := "BBBCOOKIE1", updateOk := true }]
      = [.updateCookie "AAACOOKIE1" false, .updateCookie "BBBCOOKIE1" true,
         .fileWrite "cookie.txt" "BBBCOOKIE1"]
    ∧ task.persistedOf
        (task.check false { cookieFile := "cookie.txt" } { manageGroup := 123 }
          [{ cookie := "AAACOOKIE1", updateOk := false },
           { cookie := "BBBCOOKIE1", updateOk := true }])
        = ["BBBCOOKIE1"]
    ∧ ("AAACOOKIE1" : String) ≠ "BBBCOOKIE1" := by
  refine ⟨by decide, by decide, by decide⟩

/-- C7 amended: on a failed probe the manager scans the sessions in order and
the first non-empty credential the client accepts wins and is persisted
(rejected credentials are skipped); if no session yields an accepted
credential, exactly one notification is sent to the configured
administrative channel (none when no session is connected), and a successful
probe performs no action at all. -/
theorem c7_amended_refresh_first_accepted (qz : task.QzoneConfig)
    (bot : task.BotConfig) (bots : List task.BotSession)
    (hmg : 0 < bot.manageGroup) (hfile : qz.cookieFile ≠ "") :
    (task.check true qz bot bots = [])
    ∧ (∀ b, bots.find? (fun s => s.cookie ≠ "" && s.updateOk) = some b →
        task.persistedOf (task.check false qz bot bots) = [b.cookie]
        ∧ task.notifyCount (task.check false qz bot bots) = 0)
    ∧ (bots.find? (fun s => s.cookie ≠ "" && s.updateOk) = none →
        task.persistedOf (task.check false qz bot bots) = []
        ∧ task.notifyCount (task.check false qz bot bots)
            = (if bots.isEmpty then 0 else 1)) := by
  refine ⟨rfl, ?_, ?_⟩
  · intro b hb
    obtain ⟨h1, h2, h3⟩ := (task.tryRefresh_spec qz hfile bots).1 b hb
    simp only [task.check, if_false, h1, if_true]
    exact ⟨h2, h3⟩
  · intro hn
    obtain ⟨h1, h2, h3⟩ := (task.tryRefresh_spec qz hfile bots).2 hn
    have hcheck : task.check false qz bot bots
        = (task.tryRefreshFromBot qz bots).2
          ++ task.notifyAdmin bot.manageGroup bots task.expiredMsg := by
      simp [task.check, h1]
    rw [hcheck]
    constructor
    · rw [task.persistedOf_append, h2, task.notifyAdmin_persistedOf]
      simp
    · rw [task.notifyCount_append, h3]
      cases hb : bots with
      | nil => simp [task.notifyAdmin, task.notifyCount]
      | cons x xs =>
        rw [task.notifyAdmin_count bot.manageGroup _ _ hmg (by simp)]
        simp

/-- Witness for the amended C7: one rejected and one accepted session. -/
theorem c7_amended_refresh_first_accepted_witness :
    task.persistedOf
        (task.check false { cookieFile := "ck.txt" } { manageGroup := 9 }
          [{ cookie := "", updateOk := true },
           { cookie := "CCCCOOKIE1", updateOk := true }])
      = ["CCCCOOKIE1"]
    ∧ task.notifyCount
        (task.check false { cookieFile := "ck.txt" } { manageGroup := 9 }
          [{ cookie := "", updateOk := true },
           { cookie := "CCCCOOKIE1", updateOk := true }])
      = 0 :=
  (c7_amended_refresh_first_accepted { cookieFile := "ck.txt" } { manageGroup := 9 }
      [{ cookie := "", updateOk := true }, { cookie := "CCCCOOKIE1", updateOk := true }]
      (by decide) (by decide)).2.1
    { cookie := "CCCCOOKIE1", updateOk := true } (by decide)

/-! ### Startup acquisition lemmas (towards C8) -/

namespace task

theorem qrLoop_success (cfg : QzoneConfig) (env : StartEnv) :
    ∀ (fuel i m : Nat) (ck : String), m < fuel →
      (∀ j, j < m → nonterminalPoll (env.polls (i + j))) →
      env.polls (i + m) = .pstate .success ck →
      (qrLoop cfg env i fuel).1 = .ok ck
      ∧ (cfg.cookieFile ≠ "" →
          KAEvent.fileWrite cfg.cookieFile ck ∈ (qrLoop cfg env i fuel).2) := by
  intro fuel
  induction fuel with
  | zero => intro i m ck hm; omega
  | succ fuel ih =>
    intro i m ck hm hpre hsucc
    cases m with
    | zero =>
      simp only [Nat.add_zero] at hsucc
      simp only [qrLoop, hsucc]
      refine ⟨by trivial, fun hf => ?_⟩
      simp [SaveCookie, hf]
    | succ m =>
      have h0 := hpre 0 (by omega)
      simp only [Nat.add_zero] at h0
      have hshift : ∀ j, j < m → nonterminalPoll (env.polls (i + 1 + j)) := by
        intro j hj
        have := hpre (j + 1) (by omega)
        have harith : i + (j + 1) = i + 1 + j := by omega
        rwa [harith] at this
      have hsucc2 : env.polls (i + 1 + m) = .pstate .success ck := by
        have harith : i + (m + 1) = i + 1 + m := by omega
        rwa [harith] at hsucc
      have htail := ih (i + 1) m ck (by omega) hshift hsucc2
      cases hp : env.polls i with
      | perr msg => rw [hp] at h0; simp [nonterminalPoll] at h0
      | pstate s c =>
        cases s with
        | success => rw [hp] at h0; simp [nonterminalPoll] at h0
        | expired => rw [hp] at h0; simp [nonterminalPoll] at h0
        | scanned =>
          simp only [qrLoop, hp]
          exact ⟨htail.1, fun hf => by simp [htail.2 hf]⟩
        | waiting =>
          simp only [qrLoop, hp]
          exact ⟨htail.1, fun hf => by simp [htail.2 hf]⟩

theorem qrLoop_timeout (cfg : QzoneConfig) (env : StartEnv) :
    ∀ (fuel i : Nat),
      (∀ j, j < fuel → nonterminalPoll (env.polls (i + j))) →
      (qrLoop cfg env i fuel).1 = .error "登录超时" := by
  intro fuel
  induction fuel with
  | zero => intro i _; rfl
  | succ fuel ih =>
    intro i hpre
    have h0 := hpre 0 (by omega)
    simp only [Nat.add_zero] at h0
    have hshift : ∀ j, j < fuel → nonterminalPoll (env.polls (i + 1 + j)) := by
      intro j hj
      have := hpre (j + 1) (by omega)
      have harith : i + (j + 1) = i + 1 + j := by omega
      rwa [harith] at this
    cases hp : env.polls i with
    | perr msg => rw [hp] at h0; simp [nonterminalPoll] at h0
    | pstate s c =>
      cases s with
      | success => rw [hp] at h0; simp [nonterminalPoll] at h0
      | expired => rw [hp] at h0; simp [nonterminalPoll] at h0
      | scanned =>
        simp only [qrLoop, hp]
        exact ih (i + 1) hshift
      | waiting =>
        simp only [qrLoop, hp]
        exact ih (i + 1) hshift

end task

/-- C8 fails as stated: a credential taken from the explicitly configured
value is returned without ever being written to the (configured, currently
unreadable) credential file — sources (c) and (d) persist, source (a) does
not. -/
theorem c8_counterexample :
    task.TryGetCookie { cookie := "CFGCOOKIE11", cookieFile := "cookie.txt" }
        { fileRead := none }
      = (.ok "CFGCOOKIE11", [])
    ∧ task.persistedOf
        (task.TryGetCookie { cookie := "CFGCOOKIE11", cookieFile := "cookie.txt" }
            { fileRead := none }).2
      = [] := by
  refine ⟨by rfl, by rfl⟩

/-- C8 amended: startup acquisition tries, in order, (a) the configured
value (returned as-is, not written to the file), (b) the non-empty cookie
file (already on disk, not re-written), (c) the first non-empty connected
bot credential, persisted to the file, (d) when enabled, QR login polled up
to 120 times terminating on success (persisted), expiry, or timeout; with
everything unavailable and QR disabled an error is returned. -/
theorem c8_amended_startup_acquisition (cfg : task.QzoneConfig)
    (env : task.StartEnv) (hf : cfg.cookieFile ≠ "") :
    (cfg.cookie ≠ "" → task.TryGetCookie cfg env = (.ok cfg.cookie, []))
    ∧ (∀ d, cfg.cookie = "" → env.fileRead = some d → d ≠ "" →
        task.TryGetCookie cfg env = (.ok d, []))
    ∧ (∀ c, cfg.cookie = "" → (env.fileRead = none ∨ env.fileRead = some "") →
        env.botCookies.find? (fun x => x ≠ "") = some c →
        task.TryGetCookie cfg env = (.ok c, [.fileWrite cfg.cookieFile c]))
    ∧ (∀ i ck, cfg.cookie = "" → (env.fileRead = none ∨ env.fileRead = some "") →
        env.botCookies.find? (fun x => x ≠ "") = none →
        cfg.autoLogin = true → env.qrOk = true →
        i < 120 → (∀ j, j < i → task.nonterminalPoll (env.polls j)) →
        env.polls i = .pstate .success ck →
        (task.TryGetCookie cfg env).1 = .ok ck
        ∧ task.KAEvent.fileWrite cfg.cookieFile ck ∈ (task.TryGetCookie cfg env).2)
    ∧ (cfg.cookie = "" → (env.fileRead = none ∨ env.fileRead = some "") →
        env.botCookies.find? (fun x => x ≠ "") = none →
        cfg.autoLogin = true → env.qrOk = true →
        (∀ j, j < 120 → task.nonterminalPoll (env.polls j)) →
        (task.TryGetCookie cfg env).1 = .error "登录超时")
    ∧ (cfg.cookie = "" → (env.fileRead = none ∨ env.fileRead = some "") →
        env.botCookies.find? (fun x => x ≠ "") = none →
        cfg.autoLogin = false →
        (task.TryGetCookie cfg env).1
          = .error "未能获取有效Cookie, 请通过 /扫码 命令或Web管理页面扫码登录") := by
  have hfile : ∀ (hc : cfg.cookie = ""),
      (env.fileRead = none ∨ env.fileRead = some "") →
      ∀ hbots : Option String, env.botCookies.find? (fun x => x ≠ "") = hbots →
      task.TryGetCookie cfg env
        = (match hbots with
           | some c => (.ok c, task.SaveCookie cfg c)
           | none =>
             if cfg.autoLogin then task.tryQRLogin cfg env
             else (.error "未能获取有效Cookie, 请通过 /扫码 命令或Web管理页面扫码登录", [])) := by
    intro hc hfr hbots hfind
    simp only [ne_eq, decide_not] at hfind
    cases hbots with
    | some c =>
      rcases hfr with hfr | hfr <;> simp [task.TryGetCookie, hc, hfr, hfind]
    | none =>
      rcases hfr with hfr | hfr <;> simp [task.TryGetCookie, hc, hfr, hfind]
  refine ⟨?_, ?_, ?_, ?_, ?_, ?_⟩
  · intro hc
    simp [task.TryGetCookie, hc]
  · intro d hc hfr hd
    simp [task.TryGetCookie, hc, hf, hfr, hd]
  · intro c hc hfr hfind
    rw [hfile hc hfr _ hfind]
    simp [task.SaveCookie, hf]
  · intro i ck hc hfr hfind hauto hqr hi hpre hsucc
    rw [hfile hc hfr _ hfind]
    have hun : task.tryQRLogin cfg env
        = ((task.qrLoop cfg env 0 120).1,
           .fileWrite "qrcode.png" "<qr image>" :: (task.qrLoop cfg env 0 120).2) := by
      simp [task.tryQRLogin, hqr]
    rw [if_pos hauto, hun]
    have hql := task.qrLoop_success cfg env 120 0 i ck hi
      (by intro j hj; simpa using hpre j hj) (by simpa using hsucc)
    exact ⟨hql.1, List.mem_cons_of_mem _ (hql.2 hf)⟩
  · intro hc hfr hfind hauto hqr hall
    rw [hfile hc hfr _ hfind]
    have hun : task.tryQRLogin cfg env
        = ((task.qrLoop cfg env 0 120).1,
           .fileWrite "qrcode.png" "<qr image>" :: (task.qrLoop cfg env 0 120).2) := by
      simp [task.tryQRLogin, hqr]
    rw [if_pos hauto, hun]
    exact task.qrLoop_timeout cfg env 120 0 (by intro j hj; simpa using hall j hj)
  · intro hc hfr hfind hauto
    rw [hfile hc hfr _ hfind]
    simp [hauto]

/-- Witness for the amended C8: QR login succeeds on the third poll and the
credential is written to the configured file. -/
theorem c8_amended_startup_acquisition_witness :
    (task.TryGetCookie { cookieFile := "cookie.txt", autoLogin := true }
        { fileRead := none,
          polls := fun j => if j < 2 then .pstate .waiting ""
            else .pstate .success "QRCOOKIE11" }).1 = .ok "QRCOOKIE11"
    ∧ task.KAEvent.fileWrite "cookie.txt" "QRCOOKIE11"
        ∈ (task.TryGetCookie { cookieFile := "cookie.txt", autoLogin := true }
            { fileRead := none,
              polls := fun j => if j < 2 then .pstate .waiting ""
                else .pstate .success "QRCOOKIE11" }).2 :=
  (c8_amended_startup_acquisition
      { cookieFile := "cookie.txt", autoLogin := true }
      { fileRead := none,
        polls := fun j => if j < 2 then .pstate .waiting ""
          else .pstate .success "QRCOOKIE11" }
      (by decide)).2.2.2.1 2 "QRCOOKIE11" rfl (Or.inl rfl) rfl rfl rfl
    (by omega)
    (by
      intro j hj
      show task.nonterminalPoll (if j < 2 then .pstate .waiting ""
        else .pstate .success "QRCOOKIE11")
      rw [if_pos hj]
      trivial)
    (by rfl)
